import Mathlib

/-!
Verification of the flashlight virtualized-grid package
(`src/app/packages/flashlight/src/index.ts`, `state.ts`, and the
`SectionElement` implementation in `src/unnamed/part_000`).

JavaScript numbers are modelled as rationals (`ℚ`); JS objects used as
string-keyed maps are modelled as association lists with first-match
lookup (assignment prepends, as the later binding shadows the earlier
one); JS `Set` is modelled as `Finset ℕ`.

`tile.ts` and `constants.ts` are imported by `index.ts` but are not part
of the provided sources; the definitions `tile`, `MARGIN` and
`NUM_ROWS_PER_SECTION` below are therefore modelled from the spec, as
marked in their doc comments.
-/

namespace Flashlight

/-- `ItemData` from `state.ts`: an opaque string id and a positive
aspect ratio (the positivity is not validated by the code). -/
structure ItemData where
  id : String
  aspectRatio : ℚ
deriving DecidableEq, Repr

/-- `RowData` from `state.ts`: the row's items, its achieved aspect
ratio, and an optional count of extra margin units. -/
structure RowData where
  items : List ItemData
  aspectRatio : ℚ
  extraMargins : Option ℕ
deriving DecidableEq, Repr

/-- Concatenation of the items of a list of rows, in order. -/
def rowsItems (rows : List RowData) : List ItemData :=
  (rows.map RowData.items).flatten

/-- Sum of the aspect ratios of a list of items. -/
def ratioSum (items : List ItemData) : ℚ :=
  (items.map ItemData.aspectRatio).sum

/-- Modelled from the spec: `constants.ts` is absent from the provided
sources.  The spec fixes the inter-item margin at 3 pixels (the default
of the `margin` option). -/
def MARGIN : ℚ := 3

/-- Modelled from the spec: `constants.ts` is absent from the provided
sources.  The spec only requires a fixed positive row capacity per
section; 10 is used as the concrete value. -/
def NUM_ROWS_PER_SECTION : ℕ := 10

/-- Modelled from the spec: `tile.ts` is absent from the provided
sources.  Accumulator loop of the tiling pass, per spec section 4.1:
items are accumulated into the current row while summing aspect ratios;
the row closes once the running sum reaches the threshold.  When input
is exhausted with a below-threshold tail, the tail becomes the remainder
if `hasMore` is true, and is emitted as a final partial row otherwise.
`cur` is the current row's items and `acc` their aspect-ratio sum.
The spec does not define when `extraMargins` is populated, so rows are
emitted with `extraMargins = none`. -/
def tileGo (threshold : ℚ) (hasMore : Bool) :
    List ItemData → List ItemData → ℚ → List RowData × List ItemData
  | [], cur, acc =>
    if cur = [] then ([], [])
    else if hasMore then ([], cur)
    else ([⟨cur, acc, none⟩], [])
  | x :: rest, cur, acc =>
    let cur' := cur ++ [x]
    let acc' := acc + x.aspectRatio
    if threshold ≤ acc' then
      let r := tileGo threshold hasMore rest [] 0
      (⟨cur', acc', none⟩ :: r.1, r.2)
    else
      tileGo threshold hasMore rest cur' acc'

/-- Modelled from the spec: `tile.ts` is absent from the provided
sources.  The tiling pass of spec section 4.1: ordered items to
justified rows plus leftover remainder. -/
def tile (items : List ItemData) (threshold : ℚ) (hasMore : Bool) :
    List RowData × List ItemData :=
  tileGo threshold hasMore items [] 0

/-- Style record of one item placeholder element of a section
(`item.style` in `src/unnamed/part_000`); all fields start unset. -/
structure ItemStyle where
  height : Option ℚ
  width : Option ℚ
  left : Option ℚ
  top : Option ℚ
deriving DecidableEq, Repr

/-- Blank style of a freshly created item element. -/
def ItemStyle.blank : ItemStyle := ⟨none, none, none, none⟩

/-- One row as stored by `SectionElement` (`src/unnamed/part_000`,
constructor): the row's aspect ratio and extra-margin count together
with one styled element per item. -/
structure SectionRow where
  aspectRatio : ℚ
  extraMargins : Option ℕ
  cells : List (ItemStyle × ItemData)
deriving DecidableEq, Repr

/-- The mutable state of a `SectionElement` (`src/unnamed/part_000`):
stored `top`, `width`, `height` (all initially undefined, modelled as
`none`), the styles written to the section surface, and the rows. -/
structure SectionElement where
  top : Option ℚ
  width : Option ℚ
  height : Option ℚ
  styleTop : Option ℚ
  styleHeight : Option ℚ
  rows : List SectionRow
deriving DecidableEq, Repr

/-- A `SectionElement` as built by the constructor in
`src/unnamed/part_000` from `RowData`: nothing laid out yet. -/
def sectionOfRows (rows : List RowData) : SectionElement :=
  { top := none, width := none, height := none, styleTop := none, styleHeight := none,
    rows := rows.map fun r =>
      ⟨r.aspectRatio, r.extraMargins, r.items.map fun it => (ItemStyle.blank, it)⟩ }

/-- Row height computed by `SectionElement.set` in
`src/unnamed/part_000`:
`(width - (items.length - 1 + extraMargins) * MARGIN) / rowAspectRatio`,
with a missing or zero `extraMargins` treated as `0` (in the source,
`extraMargins = extraMargins ? extraMargins : 0`).  Note the source uses
the module constant `MARGIN`, not the margin passed by the controller. -/
def rowLayoutHeight (width : ℚ) (r : SectionRow) : ℚ :=
  (width - (((r.cells.length : ℚ) - 1) + ((r.extraMargins.getD 0 : ℕ) : ℚ)) * MARGIN) /
    r.aspectRatio

/-- Placement of the items of one row by `SectionElement.set`
(`src/unnamed/part_000`): each item gets the row height, width
`height * aspectRatio`, a cumulative `left` with margin gaps, and the
row's local top. -/
def layoutCells (h localTop : ℚ) : List (ItemStyle × ItemData) → ℚ → List (ItemStyle × ItemData)
  | [], _ => []
  | c :: rest, left =>
    let w := h * c.2.aspectRatio
    (⟨some h, some w, some left, some localTop⟩, c.2) :: layoutCells h localTop rest (left + w + MARGIN)

/-- Layout of all rows by `SectionElement.set` (`src/unnamed/part_000`):
rows are stacked top to bottom with margin gaps; returns the restyled
rows and the final cumulative `localTop`. -/
def layoutRows (width : ℚ) : List SectionRow → ℚ → List SectionRow × ℚ
  | [], localTop => ([], localTop)
  | r :: rest, localTop =>
    let h := rowLayoutHeight width r
    let r' : SectionRow := ⟨r.aspectRatio, r.extraMargins, layoutCells h localTop r.cells 0⟩
    let p := layoutRows width rest (localTop + h + MARGIN)
    (r' :: p.1, p.2)

/-- `SectionElement.set(top, width)` from `src/unnamed/part_000`: the
section top is updated only when it differs from the stored top, and the
full per-item layout is recomputed only when the width differs from the
stored width.  The method takes no margin parameter: the layout uses the
module constant `MARGIN` even though `index.ts` passes
`this.state.options.margin` as a third argument. -/
def sectionSet (s : SectionElement) (top width : ℚ) : SectionElement :=
  let s1 := if s.top ≠ some top then { s with styleTop := some top, top := some top } else s
  if s1.width ≠ some width then
    let p := layoutRows width s1.rows 0
    { s1 with rows := p.1, styleHeight := some p.2, width := some width, height := some p.2 }
  else s1

/-- Concrete section used to evaluate `SectionElement.set`: one row of
two items with aspect ratio 1 each, row aspect ratio 2, no extra
margins. -/
def sectionMarginExample : SectionElement :=
  sectionOfRows [⟨[⟨"x", 1⟩, ⟨"y", 1⟩], 2, none⟩]

/-- A JavaScript value holding the pagination cursor
(`state.currentRequestKey`): an explicit `null`, `undefined` (the value
of an omitted `nextRequestKey` field), or an actual key.  Actual keys
are assumed truthy (the cursor type is opaque to this layer). -/
inductive Key (K : Type) where
  | jsNull : Key K
  | jsUndef : Key K
  | val : K → Key K
deriving DecidableEq, Repr

/-- JavaScript truthiness of a cursor value (`Boolean(key)` and
`key && …` in the source): `null` and `undefined` are falsy. -/
def Key.truthy : Key K → Bool
  | .val _ => true
  | _ => false

/-- JavaScript strict equality with `null` (`key === null` in the
source); note `undefined === null` is `false`. -/
def Key.isNull : Key K → Bool
  | .jsNull => true
  | _ => false

/-- A section as held by the controller (`state.sections` entries): its
stable index, its rows, the pixel top and height assigned via
`SectionElement.set`, and whether its surface is attached
(`isShown()`). -/
structure CSection where
  index : ℕ
  rows : List RowData
  top : ℚ
  height : ℚ
  attached : Bool
deriving DecidableEq, Repr

/-- The recognized options (`Options` in `state.ts`). -/
structure Options where
  margin : ℚ
  rowAspectRatioThreshold : ℚ
deriving DecidableEq, Repr

/-- The controller state (`State<K>` in `state.ts` together with the
`loading` and `lastScrollTop` fields of the `Flashlight` instance).
The unused `state.items` field and the DOM/render/updater plumbing are
not modelled; `itemIndexMap` is an association list with first-match
lookup, where assignment prepends. -/
structure ControllerState (K : Type) where
  loading : Bool
  currentRequestKey : Key K
  containerHeight : ℚ
  width : ℚ
  height : ℚ
  currentRemainder : List ItemData
  currentRowRemainder : List RowData
  sections : List CSection
  options : Options
  activeSection : ℕ
  lastSection : ℕ
  clean : Finset ℕ
  shownSections : Finset ℕ
  itemIndexMap : List (String × ℕ)
  nextItemIndex : ℕ
  lastScrollTop : ℚ
deriving DecidableEq

/-- A pager response (`Response<K>` in `state.ts`); an omitted
`nextRequestKey` is the value `Key.jsUndef`. -/
structure Response (K : Type) where
  items : List ItemData
  nextRequestKey : Key K
deriving DecidableEq, Repr

/-- Height of one controller-built row as computed by
`SectionElement.set`, on `RowData`. -/
def rowDataHeight (width : ℚ) (r : RowData) : ℚ :=
  (width - (((r.items.length : ℚ) - 1) + ((r.extraMargins.getD 0 : ℕ) : ℚ)) * MARGIN) /
    r.aspectRatio

/-- `getHeight()` of a freshly laid-out section: cumulative row heights
plus a margin gap per row (the final `localTop` of
`SectionElement.set`). -/
def sectionHeight (width : ℚ) (rows : List RowData) : ℚ :=
  (rows.map fun r => rowDataHeight width r + MARGIN).sum

/-- Grouping of rows into sections of `NUM_ROWS_PER_SECTION` rows each
(`new Array(Math.ceil(rows.length / NUM_ROWS_PER_SECTION)).fill(0)
.map(() => rows.splice(0, NUM_ROWS_PER_SECTION))` in `index.ts`). -/
def chunkRows : List RowData → List (List RowData)
  | [] => []
  | x :: xs =>
    (x :: xs).take NUM_ROWS_PER_SECTION :: chunkRows ((x :: xs).drop NUM_ROWS_PER_SECTION)
termination_by l => l.length
decreasing_by simp [NUM_ROWS_PER_SECTION]; omega

/-- The item-ordinal assignment loop of `Flashlight.tile` (`index.ts`
lines 410-415): each id is mapped to `nextItemIndex`, which is then
incremented. -/
def assignIds : List (String × ℕ) → ℕ → List String → List (String × ℕ) × ℕ
  | m, nxt, [] => (m, nxt)
  | m, nxt, k :: ks => assignIds ((k, nxt) :: m) (nxt + 1) ks

/-- The private `Flashlight.tile` method (`index.ts` lines 403-426):
runs the tiling pass with `hasMore = Boolean(currentRequestKey)`,
assigns ordinals for every item of the fresh rows, stores the item
remainder, optionally prefixes the held row remainder, and chunks the
rows into sections. -/
def tileStep (s : ControllerState K) (items : List ItemData) (useRowRemainder : Bool) :
    ControllerState K × List (List RowData) :=
  let r := tile items s.options.rowAspectRatioThreshold s.currentRequestKey.truthy
  let a := assignIds s.itemIndexMap s.nextItemIndex ((rowsItems r.1).map ItemData.id)
  let rows := if useRowRemainder then s.currentRowRemainder ++ r.1 else r.1
  ({ s with itemIndexMap := a.1, nextItemIndex := a.2, currentRemainder := r.2 }, chunkRows rows)

/-- Creation and placement of one `SectionElement` per chunk
(`index.ts`, the `sections.forEach` loops): each new section gets index
`sections.length`, top `state.height`, is laid out at the current
width, and the running height grows by its height; during `get()` the
new index is also added to `clean` (`markClean = true`), during the
`updateOptions` rebuild it is not. -/
def appendSections (s : ControllerState K) (chunks : List (List RowData)) (markClean : Bool) :
    ControllerState K :=
  chunks.foldl
    (fun t rows =>
      { t with
        sections :=
          t.sections ++ [⟨t.sections.length, rows, t.height, sectionHeight t.width rows, false⟩],
        height := t.height + sectionHeight t.width rows,
        clean := if markClean then insert t.sections.length t.clean else t.clean })
    s

/-- The pagination step `get()` (`index.ts` lines 183-188): a no-op
returning no fetch when `loading` is set or the cursor is strictly equal
to `null`; otherwise it sets the single-flight flag and issues the
fetch (the returned `Bool`). -/
def getStep (s : ControllerState K) : ControllerState K × Bool :=
  if s.loading || s.currentRequestKey.isNull then (s, false)
  else ({ s with loading := true }, true)

/-- The first half of the `get()` resolution handler (`index.ts` lines
191-210): store the new cursor, prepend the held item remainder, tile
(with the row remainder prefixed), and hold back an unfilled tail
section as the new row remainder when the cursor remains truthy
(re-invoking `get()` when that leaves no sections — a no-op while
`loading` is still set).  Returns the state and the surviving
chunks. -/
def resolveHold (s : ControllerState K) (resp : Response K) :
    ControllerState K × List (List RowData) :=
  let s1 := { s with currentRequestKey := resp.nextRequestKey }
  let p := tileStep s1 (s1.currentRemainder ++ resp.items) true
  if resp.nextRequestKey.truthy = true ∧ p.2 ≠ [] ∧
      (p.2.getLast?.getD []).length ≠ NUM_ROWS_PER_SECTION then
    let s2 := { p.1 with currentRowRemainder := p.2.getLast?.getD [] }
    (if p.2.dropLast = [] then (getStep s2).1 else s2, p.2.dropLast)
  else ({ p.1 with currentRowRemainder := [] }, p.2)

/-- Continuation of the `get()` resolution: the chunks surviving the
holdback are appended as sections and the loading flag is cleared. -/
def resolveAppended (s : ControllerState K) (resp : Response K) :
    ControllerState K × List (List RowData) :=
  ({ appendSections (resolveHold s resp).1 (resolveHold s resp).2 true with
      currentRequestKey := resp.nextRequestKey, loading := false },
    (resolveHold s resp).2)

/-- The trailing re-fetch condition of the `get()` resolution handler
(`index.ts` lines 240-244): content does not overfill the viewport, or
no sections were produced while the cursor is truthy, or the current
tail section of `state.sections` is in the shown set. -/
def resolveIssue (s : ControllerState K) (resp : Response K) : Bool :=
  let t := (resolveAppended s resp).1
  let chunks2 := (resolveAppended s resp).2
  decide (t.height ≤ t.containerHeight) ||
    (chunks2.isEmpty && resp.nextRequestKey.truthy) ||
    (match t.sections.getLast? with
      | some head => decide (head.index ∈ t.shownSections)
      | none => false)

/-- The complete `get()` resolution (`index.ts` lines 191-247): the
returned `Bool` records whether the trailing conditional invoked
`this.get()` again. -/
def resolveStep (s : ControllerState K) (resp : Response K) : ControllerState K × Bool :=
  if resolveIssue s resp then ((getStep (resolveAppended s resp).1).1, true)
  else ((resolveAppended s resp).1, false)

/-- The ids assigned ordinals during one `get()` resolution: the ids of
all items of the fresh rows produced by the tiling pass (the row
remainder is prefixed only after the assignment loop and is not
reassigned). -/
def resolveAssignedIds (s : ControllerState K) (resp : Response K) : List String :=
  (rowsItems (tile (s.currentRemainder ++ resp.items) s.options.rowAspectRatioThreshold
      resp.nextRequestKey.truthy).1).map ItemData.id

/-- All items currently tiled into sections, in order
(`state.sections.map((section) => section.getItems()).flat()`). -/
def flatSectionItems (secs : List CSection) : List ItemData :=
  (secs.map fun sec => rowsItems sec.rows).flatten

/-- The bookkeeping reset of the `updateOptions` rebuild (`index.ts`
lines 140-143): height, section list, shown set and clean set are
cleared; `activeSection`, `lastSection`, `itemIndexMap` and
`nextItemIndex` are not. -/
def resetForRebuild (s : ControllerState K) : ControllerState K :=
  { s with height := 0, sections := [], shownSections := ∅, clean := ∅ }

/-- The deferred rebuild body of `updateOptions` (`index.ts` lines
114-165), run when a tiling-affecting option changed: re-tiles the flat
list of all tiled items plus the row remainder's items, holds back an
unfilled tail section when the cursor is truthy (crashing with a
`TypeError` — modelled as `none` — when that pass produced no sections,
since `lastSection.length` is read without a guard), resets the
bookkeeping and rebuilds all sections. -/
def retileStep (s : ControllerState K) : Option (ControllerState K) :=
  let items := flatSectionItems s.sections ++ rowsItems s.currentRowRemainder
  let p := tileStep s items false
  if s.currentRequestKey.truthy = true then
    match p.2.getLast? with
    | none => none
    | some lastChunk =>
      if lastChunk.length ≠ NUM_ROWS_PER_SECTION then
        let s2 := { p.1 with currentRowRemainder := lastChunk }
        let chunks2 := p.2.dropLast
        let s3 := if chunks2 = [] then (getStep s2).1 else s2
        some (appendSections (resetForRebuild s3) chunks2 false)
      else some (appendSections (resetForRebuild { p.1 with currentRowRemainder := [] }) p.2 false)
  else some (appendSections (resetForRebuild { p.1 with currentRowRemainder := [] }) p.2 false)

/-- One entry of an intersection-observer batch: the section index read
from the target's dataset, and whether the target currently intersects
the viewport (`intersectionRatio` truthy). -/
structure Entry where
  index : ℕ
  intersecting : Bool
deriving DecidableEq, Repr

/-- `showSection` from `setObservers` (`index.ts` lines 251-266): a
no-op for a missing or already-shown section; otherwise attaches the
section and adds its `index` field to the shown set.  (The
`updater`-replay branch only re-renders items and changes no modelled
state.) -/
def showSection (s : ControllerState K) (i : ℕ) : ControllerState K :=
  match s.sections.get? i with
  | none => s
  | some sec =>
    if sec.attached then s
    else
      { s with
        sections := s.sections.set i { sec with attached := true },
        shownSections := insert sec.index s.shownSections }

/-- `hideSection` from `setObservers` (`index.ts` lines 268-276): a
no-op for a missing or hidden section; otherwise detaches it and
removes its `index` field from the shown set. -/
def hideSection (s : ControllerState K) (i : ℕ) : ControllerState K :=
  match s.sections.get? i with
  | none => s
  | some sec =>
    if sec.attached then
      { s with
        sections := s.sections.set i { sec with attached := false },
        shownSections := s.shownSections.erase sec.index }
    else s

/-- `clearOutsideSections` (`index.ts` lines 278-287): every index of a
snapshot of the shown set lying outside `[activeSection, lastSection]`
is hidden.  The JS `Set` iterates in insertion order; since the hides
commute, the snapshot is modelled in ascending order. -/
def clearOutsideSections (s : ControllerState K) : ControllerState K :=
  (s.shownSections.sort (· ≤ ·)).foldl
    (fun t i =>
      if i < t.activeSection ∨ t.lastSection < i then hideSection t i else t)
    s

/-- `requestMore` (`index.ts` lines 289-296): trigger another
pagination step when the cursor is truthy and `lastSection` is within
two sections of the end of tiled data. -/
def requestMore (s : ControllerState K) : ControllerState K :=
  if s.currentRequestKey.truthy = true ∧ s.sections.length ≤ s.lastSection + 2 then
    (getStep s).1
  else s

/-- `finalize` (`index.ts` lines 298-301). -/
def finalizeStep (s : ControllerState K) : ControllerState K :=
  requestMore (clearOutsideSections s)

/-- The backward walk of the scroll-down sweep (`index.ts` lines
323-329): starting from the trigger section, step to lower indices
while the current section's top is at or below the fold
(`getTop() >= scrollTop` in the source reads `st ≤ top` here) and the
index is positive. -/
def downWalk (secs : List CSection) (j : ℕ) (st : ℚ) : ℕ :=
  if _h : j = 0 then 0
  else
    match secs.get? j with
    | none => j
    | some sec => if st ≤ sec.top then downWalk secs (j - 1) st else j
termination_by j
decreasing_by omega

/-- The forward show loop of the scroll-down sweep (`index.ts` lines
336-349): shows consecutive sections starting at `activeSection` while
the next section's top is within the viewport bound, then shows one
lookahead section; returns the final `lastSection`.  The successor
index is read from the current section's `index` field, as in the
source, so a fuel bound (always sufficient for well-formed states)
guards termination; `none` models a crash or non-termination. -/
def showFwd : ℕ → ControllerState K → ℕ → ℚ → Option (ControllerState K × ℕ)
  | 0, _, _, _ => none
  | fuel + 1, s, j, bound =>
    match s.sections.get? j with
    | none => none
    | some sec =>
      let s1 := showSection s j
      let j' := sec.index + 1
      match s1.sections.get? j' with
      | none => some (showSection s1 (j' - 1), j' - 1)
      | some nxt =>
        if nxt.top ≤ bound then showFwd fuel s1 j' bound
        else some (showSection s1 j', j')

/-- The forward walk of the scroll-up sweep (`index.ts` lines 357-364):
starting from the trigger section, step to higher indices while the
current section's top is at or below the viewport bound.  The loop
guard is `revealingIndex > 0`, not an upper bound, so walking past the
end of the section list evaluates `undefined.getTop()` and throws —
modelled as `none`. -/
def upWalk (secs : List CSection) (j : ℕ) (bound : ℚ) : Option ℕ :=
  if j = 0 then some 0
  else
    match h : secs.get? j with
    | none => none
    | some sec => if sec.top ≤ bound then upWalk secs (j + 1) bound else some j
termination_by secs.length - j
decreasing_by
  have : j < secs.length := by
    by_contra hc
    rw [List.get?_eq_none.2 (by omega)] at h
    exact Option.noConfusion h
  omega

/-- Signed-index section lookup (`this.state.sections[i]` where `i` may
reach `-1` in the scroll-up sweep). -/
def zsecGet (secs : List CSection) (j : ℤ) : Option CSection :=
  if j < 0 then none else secs.get? j.toNat

/-- The backward show loop of the scroll-up sweep (`index.ts` lines
374-386): shows consecutive sections downward from `lastSection` while
the previous section's bottom is at or above the scroll top, then shows
one lookbehind section; returns the final `activeSection`. -/
def showBwd : ℕ → ControllerState K → ℤ → ℚ → Option (ControllerState K × ℕ)
  | 0, _, _, _ => none
  | fuel + 1, s, j, st =>
    match zsecGet s.sections j with
    | none => none
    | some sec =>
      let s1 := showSection s j.toNat
      let j' : ℤ := (sec.index : ℤ) - 1
      match zsecGet s1.sections j' with
      | none => some (showSection s1 (j' + 1).toNat, (j' + 1).toNat)
      | some prev =>
        if st ≤ prev.top + prev.height then showBwd fuel s1 j' st
        else some (showSection s1 j'.toNat, j'.toNat)

/-- The scroll-down branch of the observer callback (`index.ts` lines
319-352): walk back to the first section above the scroll top, step
back one more (clamped at 0), record it as `activeSection`, sweep
forward showing sections through the viewport plus one lookahead,
record `lastSection`, and finalize. -/
def downBranch (s : ControllerState K) (trigger : ℕ) (st : ℚ) : Option (ControllerState K) :=
  let j0 := downWalk s.sections trigger st
  let active := j0 - 1
  let s1 := { s with activeSection := active }
  match showFwd (s1.sections.length + 1) s1 active (st + s1.containerHeight) with
  | none => none
  | some (s2, lastIx) => some (finalizeStep { s2 with lastSection := lastIx })

/-- The scroll-up branch of the observer callback (`index.ts` lines
353-389): walk forward to the first section below the viewport bound
(possibly crashing, see `upWalk`), step one more clamped to the last
index, record it as `lastSection`, sweep backward showing sections
through the scroll top plus one lookbehind, record `activeSection`, and
finalize. -/
def upBranch (s : ControllerState K) (trigger : ℕ) (st : ℚ) : Option (ControllerState K) :=
  match upWalk s.sections trigger (st + s.containerHeight) with
  | none => none
  | some j0 =>
    let lastIx := min (s.sections.length - 1) (j0 + 1)
    let s1 := { s with lastSection := lastIx }
    match showBwd (s1.sections.length + 2) s1 (lastIx : ℤ) st with
    | none => none
    | some (s2, activeIx) => some (finalizeStep { s2 with activeSection := activeIx })

/-- The entry loop of the observer callback (`index.ts` lines 310-391):
each intersecting entry is shown and added to the shown set; the first
entry found in the shown set triggers the directional sweep, after
which the loop breaks.  A missing section for an entry index crashes
(`section.index` on `undefined`), modelled as `none`. -/
def entryLoop (down : Bool) (st : ℚ) : ControllerState K → List Entry → Option (ControllerState K)
  | s, [] => some s
  | s, e :: rest =>
    match s.sections.get? e.index with
    | none => none
    | some sec =>
      let s1 :=
        if e.intersecting then
          let t := showSection s sec.index
          { t with shownSections := insert sec.index t.shownSections }
        else s
      if down = true ∧ sec.index ∈ s1.shownSections then downBranch s1 sec.index st
      else if down = false ∧ sec.index ∈ s1.shownSections then upBranch s1 sec.index st
      else entryLoop down st s1 rest

/-- One full intersection-observer batch (`index.ts` lines 303-400):
scroll direction is determined by comparing the previous and current
scroll tops, the entries are processed, and the last observed scroll
top is stored. -/
def batchStep (s : ControllerState K) (es : List Entry) (st : ℚ) : Option (ControllerState K) :=
  match entryLoop (decide (s.lastScrollTop ≤ st)) st s es with
  | none => none
  | some s1 => some { s1 with lastScrollTop := st }

/-- Well-formedness of a controller state, maintained by the code: the
`index` field of each section equals its position in the section list,
and the shown set is exactly the set of positions of attached
sections. -/
def WF (s : ControllerState K) : Prop :=
  (∀ k sec, s.sections.get? k = some sec → sec.index = k) ∧
  (∀ i ∈ s.shownSections, ∃ sec, s.sections.get? i = some sec ∧ sec.attached = true) ∧
  (∀ k sec, s.sections.get? k = some sec → sec.attached = true → k ∈ s.shownSections)

/-- A base controller state used for concrete evaluations: attached,
empty, not loading, with the default options. -/
def baseState : ControllerState ℕ :=
  { loading := false, currentRequestKey := Key.jsUndef, containerHeight := 50, width := 100,
    height := 0, currentRemainder := [], currentRowRemainder := [], sections := [],
    options := ⟨3, 5⟩, activeSection := 0, lastSection := 0, clean := ∅, shownSections := ∅,
    itemIndexMap := [], nextItemIndex := 0, lastScrollTop := 0 }

/-- Concrete state for C5: a fetch is outstanding (`loading`), the
cursor is a real key, the viewport is 200 pixels tall. -/
def retileExampleState : ControllerState ℕ :=
  { baseState with loading := true, currentRequestKey := Key.val 1, containerHeight := 200 }

/-- Concrete pager response for C5: one item of aspect ratio 6 (a full
row on its own at the default threshold 5) and a further truthy
cursor. -/
def retileExampleResponse : Response ℕ :=
  ⟨[⟨"a", 6⟩], Key.val 2⟩

/-- Concrete section for C7: index 0, 100 pixels tall, attached. -/
def tailSection : CSection := ⟨0, [⟨[⟨"p", 2⟩], 2, none⟩], 0, 100, true⟩

/-- Concrete state for C7: one shown section of height 100 overfilling
the 50-pixel viewport, an outstanding fetch, a truthy cursor. -/
def refetchExampleState : ControllerState ℕ :=
  { baseState with
    loading := true
    currentRequestKey := Key.val 1
    height := 100
    sections := [tailSection]
    shownSections := ({0} : Finset ℕ) }

/-- Concrete pager response for C7: no items and an omitted
`nextRequestKey` (exhaustion). -/
def refetchExampleResponse : Response ℕ := ⟨[], Key.jsUndef⟩

/-- Concrete state for the C6 counterexample: one tiled section holding
the item `"b"` (aspect ratio 6), a truthy cursor, and a nonempty held
item remainder containing the fetched-but-untiled item `"c"`. -/
def dropExampleState : ControllerState ℕ :=
  { baseState with
    currentRequestKey := Key.val 1
    sections := [⟨0, [⟨[⟨"b", 6⟩], 6, none⟩], 0, 100, false⟩]
    currentRemainder := [⟨"c", 2⟩] }

/-- Concrete state for the C3 witness: one unmounted section of height
100 at top 0, nothing shown, exhausted cursor. -/
def visExampleState : ControllerState ℕ :=
  { baseState with
    currentRequestKey := Key.jsNull
    sections := [⟨0, [⟨[⟨"p", 2⟩], 2, none⟩], 0, 100, false⟩] }

-- THEOREMS BELOW THIS LINE

/-- Order preservation of the tiling accumulator: the emitted rows'
items followed by the remainder reproduce the pending current row
followed by the input. -/
theorem tileGo_order (threshold : ℚ) (hasMore : Bool) :
    ∀ (items cur : List ItemData) (acc : ℚ),
      rowsItems (tileGo threshold hasMore items cur acc).1 ++
          (tileGo threshold hasMore items cur acc).2 = cur ++ items := by
  intro items
  induction items with
  | nil =>
    intro cur acc
    simp only [tileGo]
    by_cases h : cur = []
    · simp [h, rowsItems]
    · by_cases hm : hasMore
      · simp [h, hm, rowsItems]
      · simp [h, hm, rowsItems]
  | cons x rest ih =>
    intro cur acc
    simp only [tileGo]
    by_cases h : threshold ≤ acc + x.aspectRatio
    · simp only [h, if_pos]
      have := ih [] 0
      simp only [rowsItems, List.map_cons, List.flatten_cons] at *
      rw [List.append_assoc, this]
      simp
    · simp only [h, if_neg, not_false_iff]
      rw [ih (cur ++ [x]) (acc + x.aspectRatio)]
      simp

/-- Order preservation of the tiling pass: rows' items followed by the
remainder reproduce the input items in order. -/
theorem tile_order (items : List ItemData) (threshold : ℚ) (hasMore : Bool) :
    rowsItems (tile items threshold hasMore).1 ++ (tile items threshold hasMore).2 = items := by
  simpa using tileGo_order threshold hasMore items [] 0

/-- Every row emitted by the tiling accumulator except possibly the last
has aspect ratio at least the threshold, and when `hasMore` is true even
the last one does, and the remainder is then empty or below threshold;
when `hasMore` is false the remainder is empty.  The accumulator is
invoked with `acc` equal to the sum of `cur`, below threshold whenever
`cur` is nonempty. -/
theorem tileGo_threshold (threshold : ℚ) (hasMore : Bool) :
    ∀ (items cur : List ItemData) (acc : ℚ),
      acc = ratioSum cur → (cur ≠ [] → acc < threshold) →
      (∀ r ∈ (tileGo threshold hasMore items cur acc).1, r.aspectRatio = ratioSum r.items) ∧
      (∀ i, i + 1 < (tileGo threshold hasMore items cur acc).1.length →
        ∀ r, (tileGo threshold hasMore items cur acc).1.get? i = some r →
          threshold ≤ r.aspectRatio) ∧
      (hasMore = true →
        ∀ r ∈ (tileGo threshold hasMore items cur acc).1, threshold ≤ r.aspectRatio) ∧
      (hasMore = true →
        (tileGo threshold hasMore items cur acc).2 = [] ∨
          ratioSum (tileGo threshold hasMore items cur acc).2 < threshold) ∧
      (hasMore = false → (tileGo threshold hasMore items cur acc).2 = []) := by
  intro items
  induction items with
  | nil =>
    intro cur acc hsum hlt
    simp only [tileGo]
    by_cases h : cur = []
    · simp [h]
    · by_cases hm : hasMore
      · refine ⟨?_, ?_, ?_, ?_, ?_⟩ <;> simp only [h, hm, if_neg, if_pos, ite_true, ite_false] <;>
          simp_all
      · refine ⟨?_, ?_, ?_, ?_, ?_⟩ <;> simp only [h, hm, if_neg, if_pos, ite_true, ite_false]
        · simp_all
        · intro i hi r hr
          simp at hi
        · simp_all
        · simp_all
        · simp
  | cons x rest ih =>
    intro cur acc hsum hlt
    simp only [tileGo]
    by_cases h : threshold ≤ acc + x.aspectRatio
    · have hnew := ih [] 0 (by simp [ratioSum]) (by simp)
      have hsum' : acc + x.aspectRatio = ratioSum (cur ++ [x]) := by
        simp [ratioSum, hsum]
      refine ⟨?_, ?_, ?_, ?_, ?_⟩ <;> simp only [h, if_pos]
      · intro r hr
        rcases List.mem_cons.1 hr with hr | hr
        · subst hr; exact hsum'
        · exact hnew.1 r hr
      · intro i hi r hr
        cases i with
        | zero =>
          simp only [List.get?] at hr
          cases hr
          exact h
        | succ j =>
          simp only [List.get?] at hr
          simp only [List.length_cons] at hi
          exact hnew.2.1 j (by omega) r hr
      · intro hm r hr
        rcases List.mem_cons.1 hr with hr | hr
        · subst hr; exact h
        · exact hnew.2.2.1 hm r hr
      · intro hm
        exact hnew.2.2.2.1 hm
      · intro hm
        exact hnew.2.2.2.2 hm
    · have hsum' : acc + x.aspectRatio = ratioSum (cur ++ [x]) := by
        simp [ratioSum, hsum]
      have := ih (cur ++ [x]) (acc + x.aspectRatio) hsum'
        (fun _ => lt_of_not_ge fun hc => h hc)
      simpa [h] using this

/-- C2: every row emitted by the tiling pass has achieved aspect ratio
(the sum of its items' aspect ratios) at least `rowAspectRatioThreshold`
except possibly the last row, and only when `hasMore` is false; when
`hasMore` is true every emitted row meets the threshold and the
below-threshold tail is withheld as the remainder (which, when nonempty,
is below threshold), with no partial row emitted; when `hasMore` is
false the remainder is empty. -/
theorem tile_threshold_satisfaction (items : List ItemData) (threshold : ℚ) (hasMore : Bool) :
    (∀ r ∈ (tile items threshold hasMore).1, r.aspectRatio = ratioSum r.items) ∧
    (∀ i, i + 1 < (tile items threshold hasMore).1.length →
      ∀ r, (tile items threshold hasMore).1.get? i = some r → threshold ≤ r.aspectRatio) ∧
    (hasMore = true → ∀ r ∈ (tile items threshold hasMore).1, threshold ≤ r.aspectRatio) ∧
    (hasMore = true →
      (tile items threshold hasMore).2 = [] ∨
        ratioSum (tile items threshold hasMore).2 < threshold) ∧
    (hasMore = false → (tile items threshold hasMore).2 = []) :=
  tileGo_threshold threshold hasMore items [] 0 (by simp [ratioSum]) (by simp)

/-- Witness for C2 at the spec's own boundary example: aspect ratios
`[2, 2, 2]`, threshold `5`, `hasMore = true` gives one full row of
aspect ratio `6` and an empty remainder. -/
theorem tile_threshold_satisfaction_witness :
    (tile [⟨"a", 2⟩, ⟨"b", 2⟩, ⟨"c", 2⟩] 5 true).1 =
        [⟨[⟨"a", 2⟩, ⟨"b", 2⟩, ⟨"c", 2⟩], 6, none⟩] ∧
    (tile [⟨"a", 2⟩, ⟨"b", 2⟩, ⟨"c", 2⟩] 5 true).2 = [] ∧
    (true = true →
      ∀ r ∈ (tile [⟨"a", 2⟩, ⟨"b", 2⟩, ⟨"c", 2⟩] 5 true).1, (5 : ℚ) ≤ r.aspectRatio) := by
  refine ⟨by norm_num [tile, tileGo], by norm_num [tile, tileGo], ?_⟩
  exact (tile_threshold_satisfaction [⟨"a", 2⟩, ⟨"b", 2⟩, ⟨"c", 2⟩] 5 true).2.2.1

/-- Fields of a `sectionSet` result: the stored top is always `some top`
and the stored width is always `some width` afterwards. -/
theorem sectionSet_top_width (s : SectionElement) (t w : ℚ) :
    (sectionSet s t w).top = some t ∧ (sectionSet s t w).width = some w := by
  unfold sectionSet
  by_cases h1 : s.top ≠ some t <;> by_cases h2 : s.width = some w <;>
    simp_all

/-- A `set` call whose top and width are both already held by the
section changes nothing. -/
theorem sectionSet_of_held (s : SectionElement) (t w : ℚ)
    (h1 : s.top = some t) (h2 : s.width = some w) : sectionSet s t w = s := by
  unfold sectionSet
  simp [h1, h2]

/-- C9: a section's layout recompute is idempotent: calling `set` with
the `(top, width)` the section already holds mutates nothing (stored
top, width, height, styles and per-item placements are all unchanged),
and `set(t, w)` twice equals `set(t, w)` once. -/
theorem section_set_idempotent (s : SectionElement) (t w : ℚ) :
    (s.top = some t → s.width = some w → sectionSet s t w = s) ∧
    sectionSet (sectionSet s t w) t w = sectionSet s t w := by
  refine ⟨fun h1 h2 => sectionSet_of_held s t w h1 h2, ?_⟩
  exact sectionSet_of_held (sectionSet s t w) t w
    (sectionSet_top_width s t w).1 (sectionSet_top_width s t w).2

/-- Witness for C9 at a concrete section: a section holding
`(top, width) = (7, 103)` is left untouched by `set 7 103`. -/
theorem section_set_idempotent_witness :
    sectionSet (sectionSet sectionMarginExample 7 103) 7 103 =
      sectionSet sectionMarginExample 7 103 :=
  (section_set_idempotent (sectionSet sectionMarginExample 7 103) 7 103).1
    (sectionSet_top_width sectionMarginExample 7 103).1
    (sectionSet_top_width sectionMarginExample 7 103).2

/-- C10: calling `set` with a changed top but unchanged width updates
only the vertical offset: rows (hence every per-item height, width,
left and local-top placement), stored width, stored height and the
written style height are exactly as before; only the stored top and the
written style top become the new top. -/
theorem section_set_changed_top_only (s : SectionElement) (t w : ℚ)
    (hw : s.width = some w) (ht : s.top ≠ some t) :
    (sectionSet s t w).rows = s.rows ∧
    (sectionSet s t w).width = s.width ∧
    (sectionSet s t w).height = s.height ∧
    (sectionSet s t w).styleHeight = s.styleHeight ∧
    (sectionSet s t w).top = some t ∧
    (sectionSet s t w).styleTop = some t := by
  unfold sectionSet
  simp [hw, ht]

/-- Witness for C10: moving the freshly laid out example section from
top 7 to top 9 at unchanged width 103 keeps all placements. -/
theorem section_set_changed_top_only_witness :
    (sectionSet (sectionSet sectionMarginExample 7 103) 9 103).rows =
      (sectionSet sectionMarginExample 7 103).rows ∧
    (sectionSet (sectionSet sectionMarginExample 7 103) 9 103).top = some 9 := by
  have h1 : (sectionSet sectionMarginExample 7 103).width = some 103 :=
    (sectionSet_top_width sectionMarginExample 7 103).2
  have h2 : (sectionSet sectionMarginExample 7 103).top ≠ some 9 := by
    rw [(sectionSet_top_width sectionMarginExample 7 103).1]
    norm_num
  have h := section_set_changed_top_only (sectionSet sectionMarginExample 7 103) 9 103 h1 h2
  exact ⟨h.1, h.2.2.2.2.1⟩

/-- C8, divergence witness: `SectionElement.set` lays the example row
out at width 103 with item height `(103 - 1 * MARGIN) / 2 = 50`, using
the module constant `MARGIN = 3`; had the controller's configured
`margin` option (say 10) been used, as the spec states, the height
would have been `(103 - 1 * 10) / 2 = 46.5 ≠ 50`.  The margin argument
passed by `index.ts` is ignored by `set`, so changing the `margin`
option does not change the computed layout. -/
theorem section_set_uses_constant_margin :
    ((sectionSet sectionMarginExample 0 103).rows.map fun r =>
        r.cells.map fun c => c.1.height) = [[some 50, some 50]] ∧
    ((50 : ℚ) ≠ (103 - ((2 : ℚ) - 1 + 0) * 10) / 2) := by
  constructor
  · simp [sectionMarginExample, sectionOfRows, sectionSet, layoutRows, layoutCells,
      rowLayoutHeight, ItemStyle.blank, MARGIN]
    norm_num
  · norm_num

/-- `showSection` never touches the loading flag. -/
theorem showSection_loading (s : ControllerState K) (i : ℕ) :
    (showSection s i).loading = s.loading := by
  unfold showSection
  cases s.sections.get? i with
  | none => rfl
  | some sec => by_cases h : sec.attached <;> simp [h]

/-- `hideSection` never touches the loading flag. -/
theorem hideSection_loading (s : ControllerState K) (i : ℕ) :
    (hideSection s i).loading = s.loading := by
  unfold hideSection
  cases s.sections.get? i with
  | none => rfl
  | some sec => by_cases h : sec.attached <;> simp [h]

/-- A `get()` call on a loading controller is a strict no-op. -/
theorem getStep_of_loading (s : ControllerState K) (h : s.loading = true) :
    getStep s = (s, false) := by
  simp [getStep, h]

/-- `getStep` changes at most the loading flag. -/
theorem getStep_only_loading (s : ControllerState K) :
    ∃ b, (getStep s).1 = { s with loading := b } := by
  unfold getStep
  by_cases h : (s.loading || s.currentRequestKey.isNull) = true
  · exact ⟨s.loading, by simp [h]⟩
  · exact ⟨true, by simp [h]⟩

/-- `clearOutsideSections` never touches the loading flag. -/
theorem clearOutsideSections_loading (s : ControllerState K) :
    (clearOutsideSections s).loading = s.loading := by
  unfold clearOutsideSections
  generalize (s.shownSections.sort (· ≤ ·)) = l
  induction l generalizing s with
  | nil => rfl
  | cons i rest ih =>
    rw [List.foldl_cons]
    by_cases h : i < s.activeSection ∨ s.lastSection < i <;>
      simp only [h, if_pos, if_neg, not_false_iff] <;>
      rw [ih] <;> simp [hideSection_loading]

/-- `finalize` keeps the loading flag set. -/
theorem finalizeStep_loading (s : ControllerState K) (h : s.loading = true) :
    (finalizeStep s).loading = true := by
  unfold finalizeStep requestMore
  have hc : (clearOutsideSections s).loading = true := by
    rw [clearOutsideSections_loading]; exact h
  by_cases hcond : (clearOutsideSections s).currentRequestKey.truthy = true ∧
      (clearOutsideSections s).sections.length ≤ (clearOutsideSections s).lastSection + 2
  · rw [if_pos hcond, getStep_of_loading _ hc]; exact hc
  · rw [if_neg hcond]; exact hc

/-- The forward show loop preserves the loading flag. -/
theorem showFwd_loading (fuel : ℕ) :
    ∀ (s : ControllerState K) (j : ℕ) (bound : ℚ) (s2 : ControllerState K) (ix : ℕ),
      showFwd fuel s j bound = some (s2, ix) → s2.loading = s.loading := by
  induction fuel with
  | zero => intro s j bound s2 ix h; simp [showFwd] at h
  | succ fuel ih =>
    intro s j bound s2 ix h
    unfold showFwd at h
    cases hj : s.sections.get? j with
    | none => rw [hj] at h; exact absurd h (by simp)
    | some sec =>
      rw [hj] at h
      simp only at h
      cases hj' : (showSection s j).sections.get? (sec.index + 1) with
      | none =>
        rw [hj'] at h
        cases h
        simp [showSection_loading]
      | some nxt =>
        rw [hj'] at h
        simp only at h
        by_cases ht : nxt.top ≤ bound
        · rw [if_pos ht] at h
          rw [ih _ _ _ _ _ h, showSection_loading]
        · rw [if_neg ht] at h
          cases h
          simp [showSection_loading]

/-- The backward show loop preserves the loading flag. -/
theorem showBwd_loading (fuel : ℕ) :
    ∀ (s : ControllerState K) (j : ℤ) (st : ℚ) (s2 : ControllerState K) (ix : ℕ),
      showBwd fuel s j st = some (s2, ix) → s2.loading = s.loading := by
  induction fuel with
  | zero => intro s j st s2 ix h; simp [showBwd] at h
  | succ fuel ih =>
    intro s j st s2 ix h
    unfold showBwd at h
    cases hj : zsecGet s.sections j with
    | none => rw [hj] at h; exact absurd h (by simp)
    | some sec =>
      rw [hj] at h
      simp only at h
      cases hj' : zsecGet (showSection s j.toNat).sections ((sec.index : ℤ) - 1) with
      | none =>
        rw [hj'] at h
        cases h
        simp [showSection_loading]
      | some prev =>
        rw [hj'] at h
        simp only at h
        by_cases ht : st ≤ prev.top + prev.height
        · rw [if_pos ht] at h
          rw [ih _ _ _ _ _ h, showSection_loading]
        · rw [if_neg ht] at h
          cases h
          simp [showSection_loading]

/-- The scroll-down branch keeps the loading flag set. -/
theorem downBranch_loading (s : ControllerState K) (trigger : ℕ) (st : ℚ)
    (h : s.loading = true) :
    ∀ s', downBranch s trigger st = some s' → s'.loading = true := by
  intro s' hs
  unfold downBranch at hs
  simp only at hs
  split at hs
  · exact absurd hs (by simp)
  next s2 lastIx hf =>
    cases hs
    apply finalizeStep_loading
    have := showFwd_loading _ _ _ _ _ _ hf
    simp only at this ⊢
    rw [this]
    exact h

/-- The scroll-up branch keeps the loading flag set. -/
theorem upBranch_loading (s : ControllerState K) (trigger : ℕ) (st : ℚ)
    (h : s.loading = true) :
    ∀ s', upBranch s trigger st = some s' → s'.loading = true := by
  intro s' hs
  unfold upBranch at hs
  simp only at hs
  split at hs
  · exact absurd hs (by simp)
  next j0 hw =>
    split at hs
    · exact absurd hs (by simp)
    next s2 activeIx hb =>
      cases hs
      apply finalizeStep_loading
      have := showBwd_loading _ _ _ _ _ _ hb
      simp only at this ⊢
      rw [this]
      exact h

/-- The observer entry loop keeps the loading flag set. -/
theorem entryLoop_loading (down : Bool) (st : ℚ) :
    ∀ (es : List Entry) (s : ControllerState K), s.loading = true →
      ∀ s', entryLoop down st s es = some s' → s'.loading = true := by
  intro es
  induction es with
  | nil =>
    intro s h s' hs
    cases hs
    exact h
  | cons e rest ih =>
    intro s h s' hs
    unfold entryLoop at hs
    cases he : s.sections.get? e.index with
    | none => rw [he] at hs; exact absurd hs (by simp)
    | some sec =>
      rw [he] at hs
      simp only at hs
      set s1 := if e.intersecting then
          let t := showSection s sec.index
          { t with shownSections := insert sec.index t.shownSections }
        else s with hs1
      have h1 : s1.loading = true := by
        rw [hs1]
        by_cases hint : e.intersecting <;> simp [hint, showSection_loading, h]
      by_cases hd : down = true ∧ sec.index ∈ s1.shownSections
      · rw [if_pos hd] at hs
        exact downBranch_loading s1 sec.index st h1 s' hs
      · rw [if_neg hd] at hs
        by_cases hu : down = false ∧ sec.index ∈ s1.shownSections
        · rw [if_pos hu] at hs
          exact upBranch_loading s1 sec.index st h1 s' hs
        · rw [if_neg hu] at hs
          exact ih s1 h1 s' hs

/-- Field bookkeeping of `appendSections`: everything except the
section list, the height and the clean set is untouched; the section
list grows by one section per chunk, whose rows are exactly the
chunk. -/
theorem appendSections_fields (chunks : List (List RowData)) :
    ∀ (s : ControllerState K) (m : Bool),
      (appendSections s chunks m).loading = s.loading ∧
      (appendSections s chunks m).currentRequestKey = s.currentRequestKey ∧
      (appendSections s chunks m).containerHeight = s.containerHeight ∧
      (appendSections s chunks m).shownSections = s.shownSections ∧
      (appendSections s chunks m).currentRemainder = s.currentRemainder ∧
      (appendSections s chunks m).currentRowRemainder = s.currentRowRemainder ∧
      (appendSections s chunks m).itemIndexMap = s.itemIndexMap ∧
      (appendSections s chunks m).nextItemIndex = s.nextItemIndex ∧
      (appendSections s chunks m).sections.length = s.sections.length + chunks.length ∧
      flatSectionItems (appendSections s chunks m).sections =
        flatSectionItems s.sections ++ rowsItems chunks.flatten := by
  induction chunks with
  | nil =>
    intro s m
    simp [appendSections, rowsItems]
  | cons c rest ih =>
    intro s m
    have step :
        appendSections s (c :: rest) m =
          appendSections
            { s with
              sections :=
                s.sections ++ [⟨s.sections.length, c, s.height, sectionHeight s.width c, false⟩],
              height := s.height + sectionHeight s.width c,
              clean := if m then insert s.sections.length s.clean else s.clean }
            rest m := by
      simp [appendSections]
    rw [step]
    refine ⟨(ih _ m).1, (ih _ m).2.1, (ih _ m).2.2.1, (ih _ m).2.2.2.1, (ih _ m).2.2.2.2.1,
      (ih _ m).2.2.2.2.2.1, (ih _ m).2.2.2.2.2.2.1, (ih _ m).2.2.2.2.2.2.2.1, ?_, ?_⟩
    · rw [(ih _ m).2.2.2.2.2.2.2.2.1]
      simp only [List.length_append, List.length_cons, List.length_nil]
      omega
    · rw [(ih _ m).2.2.2.2.2.2.2.2.2]
      simp [flatSectionItems, rowsItems, List.flatten_append]

/-- The loading flag survives the `updateOptions` rebuild. -/
theorem retileStep_loading (s : ControllerState K) (h : s.loading = true) :
    ∀ s', retileStep s = some s' → s'.loading = true := by
  intro s' hs
  unfold retileStep at hs
  have htile : (tileStep s (flatSectionItems s.sections ++ rowsItems s.currentRowRemainder)
      false).1.loading = s.loading := by
    simp [tileStep]
  by_cases hk : s.currentRequestKey.truthy = true
  · rw [if_pos hk] at hs
    cases hl : (tileStep s (flatSectionItems s.sections ++ rowsItems s.currentRowRemainder)
        false).2.getLast? with
    | none => rw [hl] at hs; exact absurd hs (by simp)
    | some lastChunk =>
      rw [hl] at hs
      simp only at hs
      by_cases hlen : lastChunk.length ≠ NUM_ROWS_PER_SECTION
      · rw [if_pos hlen] at hs
        cases hs
        rw [(appendSections_fields _ _ _).1]
        simp only [resetForRebuild]
        by_cases hemp : (tileStep s (flatSectionItems s.sections ++
            rowsItems s.currentRowRemainder) false).2.dropLast = []
        · rw [if_pos hemp, getStep_of_loading]
          · simp [htile, h]
          · simp [htile, h]
        · rw [if_neg hemp]
          simp [htile, h]
      · rw [if_neg hlen] at hs
        cases hs
        rw [(appendSections_fields _ _ _).1]
        simp [resetForRebuild, htile, h]
  · rw [if_neg hk] at hs
    cases hs
    rw [(appendSections_fields _ _ _).1]
    simp [resetForRebuild, htile, h]

/-- C1: single-flight pagination: while the loading flag is set (a
fetch is outstanding), any further `get()` is a strict no-op performing
no fetch, and no other operation — an option-driven rebuild or a
visibility batch (whose `requestMore` goes through the same guarded
`get()`) — clears the flag; it is cleared only inside the resolution
handler of the outstanding fetch (`resolveStep`). -/
theorem single_flight_pagination (s : ControllerState K) (h : s.loading = true) :
    getStep s = (s, false) ∧
    (∀ s', retileStep s = some s' → s'.loading = true) ∧
    (∀ es st s', batchStep s es st = some s' → s'.loading = true) := by
  refine ⟨getStep_of_loading s h, retileStep_loading s h, ?_⟩
  intro es st s' hs
  unfold batchStep at hs
  cases he : entryLoop (decide (s.lastScrollTop ≤ st)) st s es with
  | none => rw [he] at hs; exact absurd hs (by simp)
  | some s1 =>
    rw [he] at hs
    cases hs
    exact entryLoop_loading _ st es s h s1 he

/-- Witness for C1 at a concrete loading state: the pagination step
returns the state unchanged and performs no fetch, and an empty
visibility batch keeps the flag set. -/
theorem single_flight_pagination_witness :
    getStep retileExampleState = (retileExampleState, false) ∧
    (∀ s', batchStep retileExampleState [] 0 = some s' → s'.loading = true) := by
  refine ⟨(single_flight_pagination retileExampleState rfl).1, ?_⟩
  intro s' hs
  exact (single_flight_pagination retileExampleState rfl).2.2 [] 0 s' hs

/-- C4, divergence witness: on a controller state whose last response
omitted `nextRequestKey` (cursor `undefined`), `get()` is not a no-op:
the `=== null` guard does not catch `undefined`, so a fetch is issued
and the loading flag flips; with an explicit `null` cursor (or while
loading) `get()` is the guarded no-op the claim describes. -/
theorem get_fetches_on_undefined_cursor :
    baseState.loading = false ∧
    baseState.currentRequestKey = Key.jsUndef ∧
    (getStep baseState).2 = true ∧
    (getStep baseState).1.loading = true ∧
    getStep { baseState with currentRequestKey := (Key.jsNull : Key ℕ) } =
      ({ baseState with currentRequestKey := (Key.jsNull : Key ℕ) }, false) := by
  refine ⟨rfl, rfl, ?_, ?_, ?_⟩ <;> simp [getStep, baseState, Key.isNull]

/-- `rowsItems` distributes over append. -/
theorem rowsItems_append (a b : List RowData) :
    rowsItems (a ++ b) = rowsItems a ++ rowsItems b := by
  simp [rowsItems]

/-- Flattening the chunks reproduces the rows, bounded version. -/
theorem chunkRows_flatten_aux : ∀ (n : ℕ) (l : List RowData), l.length ≤ n →
    (chunkRows l).flatten = l := by
  intro n
  induction n with
  | zero =>
    intro l hl
    rw [List.length_eq_zero.1 (Nat.le_zero.1 hl)]
    simp [chunkRows]
  | succ n ih =>
    intro l hl
    match l with
    | [] => simp [chunkRows]
    | x :: xs =>
      rw [chunkRows, List.flatten_cons, ih _ ?_, List.take_append_drop]
      simp only [List.length_drop, List.length_cons] at *
      simp [NUM_ROWS_PER_SECTION]
      omega

/-- Flattening the chunks reproduces the rows
(`Math.ceil`-style grouping loses nothing). -/
theorem chunkRows_flatten (l : List RowData) : (chunkRows l).flatten = l :=
  chunkRows_flatten_aux l.length l le_rfl

/-- `getStep` keeps the container height. -/
@[simp] theorem getStep_fst_containerHeight (s : ControllerState K) :
    (getStep s).1.containerHeight = s.containerHeight := by
  obtain ⟨b, hb⟩ := getStep_only_loading s; rw [hb]

/-- `getStep` keeps the shown set. -/
@[simp] theorem getStep_fst_shownSections (s : ControllerState K) :
    (getStep s).1.shownSections = s.shownSections := by
  obtain ⟨b, hb⟩ := getStep_only_loading s; rw [hb]

/-- `getStep` keeps the section list. -/
@[simp] theorem getStep_fst_sections (s : ControllerState K) :
    (getStep s).1.sections = s.sections := by
  obtain ⟨b, hb⟩ := getStep_only_loading s; rw [hb]

/-- `getStep` keeps the ordinal map. -/
@[simp] theorem getStep_fst_itemIndexMap (s : ControllerState K) :
    (getStep s).1.itemIndexMap = s.itemIndexMap := by
  obtain ⟨b, hb⟩ := getStep_only_loading s; rw [hb]

/-- `getStep` keeps the ordinal counter. -/
@[simp] theorem getStep_fst_nextItemIndex (s : ControllerState K) :
    (getStep s).1.nextItemIndex = s.nextItemIndex := by
  obtain ⟨b, hb⟩ := getStep_only_loading s; rw [hb]

/-- `getStep` keeps the item remainder. -/
@[simp] theorem getStep_fst_currentRemainder (s : ControllerState K) :
    (getStep s).1.currentRemainder = s.currentRemainder := by
  obtain ⟨b, hb⟩ := getStep_only_loading s; rw [hb]

/-- `getStep` keeps the row remainder. -/
@[simp] theorem getStep_fst_currentRowRemainder (s : ControllerState K) :
    (getStep s).1.currentRowRemainder = s.currentRowRemainder := by
  obtain ⟨b, hb⟩ := getStep_only_loading s; rw [hb]

/-- `getStep` keeps the cursor. -/
@[simp] theorem getStep_fst_currentRequestKey (s : ControllerState K) :
    (getStep s).1.currentRequestKey = s.currentRequestKey := by
  obtain ⟨b, hb⟩ := getStep_only_loading s; rw [hb]

/-- `getStep` keeps the content height. -/
@[simp] theorem getStep_fst_height (s : ControllerState K) :
    (getStep s).1.height = s.height := by
  obtain ⟨b, hb⟩ := getStep_only_loading s; rw [hb]

/-- `getStep` keeps the width. -/
@[simp] theorem getStep_fst_width (s : ControllerState K) :
    (getStep s).1.width = s.width := by
  obtain ⟨b, hb⟩ := getStep_only_loading s; rw [hb]

/-- Field bookkeeping of the holdback half of the `get()` resolution. -/
theorem resolveHold_fields (s : ControllerState K) (resp : Response K) :
    (resolveHold s resp).1.containerHeight = s.containerHeight ∧
    (resolveHold s resp).1.shownSections = s.shownSections ∧
    (resolveHold s resp).1.sections = s.sections ∧
    (resolveHold s resp).1.itemIndexMap =
      (assignIds s.itemIndexMap s.nextItemIndex (resolveAssignedIds s resp)).1 ∧
    (resolveHold s resp).1.nextItemIndex =
      (assignIds s.itemIndexMap s.nextItemIndex (resolveAssignedIds s resp)).2 ∧
    (resolveHold s resp).1.currentRemainder =
      (tile (s.currentRemainder ++ resp.items) s.options.rowAspectRatioThreshold
        resp.nextRequestKey.truthy).2 := by
  unfold resolveHold
  simp only [tileStep, eq_self_iff_true, if_true]
  split
  · refine ⟨?_, ?_, ?_, ?_, ?_, ?_⟩ <;> simp [resolveAssignedIds, apply_ite]
  · refine ⟨?_, ?_, ?_, ?_, ?_, ?_⟩ <;> simp [resolveAssignedIds]

/-- Field bookkeeping of the appending half of the `get()`
resolution. -/
theorem resolveAppended_fields (s : ControllerState K) (resp : Response K) :
    (resolveAppended s resp).1.containerHeight = s.containerHeight ∧
    (resolveAppended s resp).1.shownSections = s.shownSections ∧
    (resolveAppended s resp).1.sections.length =
      s.sections.length + (resolveAppended s resp).2.length ∧
    (resolveAppended s resp).1.itemIndexMap =
      (assignIds s.itemIndexMap s.nextItemIndex (resolveAssignedIds s resp)).1 ∧
    (resolveAppended s resp).1.nextItemIndex =
      (assignIds s.itemIndexMap s.nextItemIndex (resolveAssignedIds s resp)).2 := by
  have h1 := resolveHold_fields s resp
  have h2 := appendSections_fields (resolveHold s resp).2 (resolveHold s resp).1 true
  unfold resolveAppended
  refine ⟨?_, ?_, ?_, ?_, ?_⟩ <;> simp only
  · rw [h2.2.2.1, h1.1]
  · rw [h2.2.2.2.1, h1.2.1]
  · rw [h2.2.2.2.2.2.2.2.2.1]
    have : (resolveHold s resp).1.sections.length = s.sections.length := by rw [h1.2.2.1]
    omega
  · rw [h2.2.2.2.2.2.2.1, h1.2.2.2.1]
  · rw [h2.2.2.2.2.2.2.2.1, h1.2.2.2.2.1]

/-- The final conditional `get()` of the resolution changes at most the
loading flag. -/
theorem resolveStep_fields (s : ControllerState K) (resp : Response K) :
    (resolveStep s resp).1.height = (resolveAppended s resp).1.height ∧
    (resolveStep s resp).1.sections = (resolveAppended s resp).1.sections ∧
    (resolveStep s resp).1.containerHeight = (resolveAppended s resp).1.containerHeight ∧
    (resolveStep s resp).1.itemIndexMap = (resolveAppended s resp).1.itemIndexMap ∧
    (resolveStep s resp).1.nextItemIndex = (resolveAppended s resp).1.nextItemIndex := by
  unfold resolveStep
  split
  · obtain ⟨b, hb⟩ := getStep_only_loading (resolveAppended s resp).1
    simp only [hb]
    simp
  · simp

/-- A `match` on an optional section against the shown set, as a
disjunction. -/
theorem matchLast_eq_true (o : Option CSection) (f : Finset ℕ) :
    ((match o with
      | some head => decide (head.index ∈ f)
      | none => false) = true) ↔ ∃ head, o = some head ∧ head.index ∈ f := by
  cases o <;> simp

/-- C7 (amended): after a `get()` resolution, the trailing conditional
re-invokes `get()` exactly when the content height does not exceed the
viewport height, or the pass appended no sections while the new cursor
is truthy, or the current tail section of the section list (newly
created or pre-existing) is in the shown set. -/
theorem resolve_refetch_iff (s : ControllerState K) (resp : Response K) :
    (resolveStep s resp).2 = true ↔
      ((resolveStep s resp).1.height ≤ s.containerHeight ∨
        ((resolveStep s resp).1.sections.length = s.sections.length ∧
          resp.nextRequestKey.truthy = true) ∨
        (∃ head, (resolveStep s resp).1.sections.getLast? = some head ∧
          head.index ∈ s.shownSections)) := by
  have hra := resolveAppended_fields s resp
  have hrs := resolveStep_fields s resp
  have h2 : (resolveStep s resp).2 = resolveIssue s resp := by
    unfold resolveStep
    by_cases hi : resolveIssue s resp <;> simp [hi]
  rw [h2]
  unfold resolveIssue
  simp only [Bool.or_eq_true, Bool.and_eq_true, decide_eq_true_eq, List.isEmpty_iff,
    matchLast_eq_true]
  rw [hrs.1, hrs.2.1, hra.1, hra.2.1, or_assoc]
  apply or_congr Iff.rfl
  apply or_congr ?_ Iff.rfl
  apply and_congr ?_ Iff.rfl
  rw [hra.2.2.1]
  constructor
  · intro h
    rw [h]
    simp
  · intro h
    exact List.length_eq_zero.1 (by omega)

/-- C7, divergence witness: on the concrete overfilled state whose
pager response is empty with an omitted cursor, the resolution still
invokes another `get()` (which fetches, the cursor being `undefined`),
although the content overfills the viewport, the cursor is exhausted,
and no section was newly created — all three conditions of the claim
are false, the trigger being the pre-existing tail section lying in the
shown window. -/
theorem refetch_despite_exhausted_cursor :
    (resolveStep refetchExampleState refetchExampleResponse).2 = true ∧
    ¬ ((resolveStep refetchExampleState refetchExampleResponse).1.height ≤
        refetchExampleState.containerHeight) ∧
    (resolveStep refetchExampleState refetchExampleResponse).1.sections.length =
      refetchExampleState.sections.length ∧
    refetchExampleResponse.nextRequestKey.truthy = false := by
  refine ⟨?_, ?_, ?_, rfl⟩ <;>
    norm_num [resolveStep, resolveIssue, resolveAppended, resolveHold, tileStep, tile, tileGo,
      assignIds, appendSections, getStep, chunkRows, rowsItems, refetchExampleState,
      refetchExampleResponse, baseState, tailSection, Key.truthy, Key.isNull]

/-- Witness for C7 on an empty attached controller: the resolution of
an empty, exhausted response refetches because the (zero) content
height does not exceed the viewport. -/
theorem resolve_refetch_iff_witness :
    (resolveStep baseState (⟨[], Key.jsNull⟩ : Response ℕ)).2 = true := by
  rw [resolve_refetch_iff]
  refine Or.inl ?_
  norm_num [resolveStep, resolveIssue, resolveAppended, resolveHold, tileStep, tile, tileGo,
    assignIds, appendSections, getStep, chunkRows, rowsItems, baseState, Key.truthy, Key.isNull]

/-- Looking up a key not among the assigned ids is unchanged by the
assignment loop. -/
theorem assignIds_lookup_of_not_mem :
    ∀ (ids : List String) (m : List (String × ℕ)) (nxt : ℕ) (k : String), k ∉ ids →
      (assignIds m nxt ids).1.lookup k = m.lookup k := by
  intro ids
  induction ids with
  | nil => intro m nxt k _; rfl
  | cons i rest ih =>
    intro m nxt k hk
    rw [assignIds, ih _ _ _ (fun hm => hk (List.mem_cons_of_mem i hm))]
    have hne : k ≠ i := fun he => hk (he ▸ List.mem_cons_self i rest)
    have hbe : (k == i) = false := beq_eq_false_iff_ne.2 hne
    simp [List.lookup, hbe]

/-- Each assigned id, when the ids are distinct, maps to the ordinal
`nxt + position`. -/
theorem assignIds_lookup_self :
    ∀ (ids : List String) (m : List (String × ℕ)) (nxt : ℕ), ids.Nodup →
      ∀ (i : ℕ) (h : i < ids.length),
        (assignIds m nxt ids).1.lookup (ids.get ⟨i, h⟩) = some (nxt + i) := by
  intro ids
  induction ids with
  | nil => intro m nxt _ i h; exact absurd h (by simp)
  | cons a rest ih =>
    intro m nxt hnd i h
    cases i with
    | zero =>
      rw [assignIds]
      have : a ∉ rest := (List.nodup_cons.1 hnd).1
      rw [List.get]
      rw [assignIds_lookup_of_not_mem rest _ _ a this]
      simp [List.lookup]
    | succ j =>
      rw [assignIds, List.get]
      have := ih ((a, nxt) :: m) (nxt + 1) (List.nodup_cons.1 hnd).2 j
        (by simpa using Nat.succ_lt_succ_iff.1 h)
      rw [this]
      congr 1
      omega

/-- The counter advances by the number of assigned ids. -/
theorem assignIds_next :
    ∀ (ids : List String) (m : List (String × ℕ)) (nxt : ℕ),
      (assignIds m nxt ids).2 = nxt + ids.length := by
  intro ids
  induction ids with
  | nil => intro m nxt; simp [assignIds]
  | cons a rest ih =>
    intro m nxt
    rw [assignIds, ih]
    simp only [List.length_cons]
    omega

/-- C5 (amended): within a `get()` pagination step whose freshly tiled
ids are new and distinct, the ordinal assignment is monotonic and
permanent: already assigned ids keep their ordinals, the counter grows
by the number of assignments, and the new ids receive consecutive,
strictly increasing ordinals in assignment order.  (An option-driven
re-tile, by contrast, reassigns every tiled id — see the
counterexample.) -/
theorem resolve_ordinal_assignment (s : ControllerState K) (resp : Response K)
    (hfresh : ∀ k ∈ resolveAssignedIds s resp, s.itemIndexMap.lookup k = none)
    (hnodup : (resolveAssignedIds s resp).Nodup) :
    (∀ k n, s.itemIndexMap.lookup k = some n →
      (resolveStep s resp).1.itemIndexMap.lookup k = some n) ∧
    (resolveStep s resp).1.nextItemIndex =
      s.nextItemIndex + (resolveAssignedIds s resp).length ∧
    (∀ (i : ℕ) (h : i < (resolveAssignedIds s resp).length),
      (resolveStep s resp).1.itemIndexMap.lookup ((resolveAssignedIds s resp).get ⟨i, h⟩) =
        some (s.nextItemIndex + i)) := by
  have hmap : (resolveStep s resp).1.itemIndexMap =
      (assignIds s.itemIndexMap s.nextItemIndex (resolveAssignedIds s resp)).1 := by
    rw [(resolveStep_fields s resp).2.2.2.1, (resolveAppended_fields s resp).2.2.2.1]
  have hnext : (resolveStep s resp).1.nextItemIndex =
      (assignIds s.itemIndexMap s.nextItemIndex (resolveAssignedIds s resp)).2 := by
    rw [(resolveStep_fields s resp).2.2.2.2, (resolveAppended_fields s resp).2.2.2.2]
  refine ⟨?_, ?_, ?_⟩
  · intro k n hk
    rw [hmap, assignIds_lookup_of_not_mem _ _ _ k ?_, hk]
    intro hmem
    rw [hfresh k hmem] at hk
    exact Option.noConfusion hk
  · rw [hnext, assignIds_next]
  · intro i h
    rw [hmap, assignIds_lookup_self _ _ _ hnodup i h]

/-- C5, divergence witness: after one `get()` resolution the item `"a"`
holds ordinal 0; the deferred `updateOptions` re-tile then re-runs the
assignment loop over the same item without resetting `nextItemIndex`,
so `"a"` is reassigned ordinal 1. -/
theorem ordinal_reassigned_by_retile :
    (resolveStep retileExampleState retileExampleResponse).1.itemIndexMap.lookup "a" =
      some 0 ∧
    ((retileStep (resolveStep retileExampleState retileExampleResponse).1).map
        fun t => t.itemIndexMap.lookup "a") = some (some 1) := by
  constructor <;>
    norm_num [resolveStep, resolveIssue, resolveAppended, resolveHold, tileStep, tile, tileGo,
      assignIds, appendSections, getStep, chunkRows, rowsItems, retileStep, flatSectionItems,
      resetForRebuild, retileExampleState, baseState, retileExampleResponse, Key.truthy,
      Key.isNull, List.lookup, NUM_ROWS_PER_SECTION]

/-- Witness for C5 at the concrete state: the single fresh id `"a"` of
the resolution receives ordinal `nextItemIndex + 0`. -/
theorem resolve_ordinal_assignment_witness :
    (resolveStep retileExampleState retileExampleResponse).1.itemIndexMap.lookup "a" =
      some (retileExampleState.nextItemIndex + 0) := by
  have hids : resolveAssignedIds retileExampleState retileExampleResponse = ["a"] := by
    norm_num [resolveAssignedIds, tile, tileGo, rowsItems, retileExampleState, baseState,
      retileExampleResponse, Key.truthy]
  have hf : ∀ k ∈ resolveAssignedIds retileExampleState retileExampleResponse,
      retileExampleState.itemIndexMap.lookup k = none := by
    rw [hids]
    intro k hk
    rfl
  have hn : (resolveAssignedIds retileExampleState retileExampleResponse).Nodup := by
    rw [hids]
    simp
  have h0 : (0 : ℕ) < (resolveAssignedIds retileExampleState retileExampleResponse).length := by
    rw [hids]
    decide
  have hmain := (resolve_ordinal_assignment retileExampleState retileExampleResponse
    hf hn).2.2 0 h0
  have hget : (resolveAssignedIds retileExampleState retileExampleResponse).get ⟨0, h0⟩ = "a" := by
    rw [List.get_of_eq hids]
    rfl
  rw [hget] at hmain
  exact hmain

/-- Sections flattened after a rebuild-append are the chunks' rows'
items. -/
theorem resetForRebuild_fields (s : ControllerState K) :
    (resetForRebuild s).sections = [] ∧
    (resetForRebuild s).currentRowRemainder = s.currentRowRemainder ∧
    (resetForRebuild s).currentRemainder = s.currentRemainder := by
  refine ⟨rfl, rfl, rfl⟩

/-- Item contents of a rebuild-append result, in terms of the base
state and the chunks. -/
theorem rebuildResult_items (x : ControllerState K) (chunks : List (List RowData)) :
    flatSectionItems (appendSections (resetForRebuild x) chunks false).sections ++
      rowsItems (appendSections (resetForRebuild x) chunks false).currentRowRemainder ++
      (appendSections (resetForRebuild x) chunks false).currentRemainder =
      rowsItems chunks.flatten ++ rowsItems x.currentRowRemainder ++ x.currentRemainder := by
  have hap := appendSections_fields chunks (resetForRebuild x) false
  rw [hap.2.2.2.2.2.2.2.2.2, hap.2.2.2.2.2.1, hap.2.2.2.2.1]
  simp [resetForRebuild, flatSectionItems]

/-- C6 (amended): the `updateOptions` rebuild keeps order over the
items it actually reconstructs from: the rebuilt sections' items,
followed by the new row remainder's items and the new item remainder,
reproduce exactly the previously tiled items followed by the previously
held row remainder's items.  The previously held item remainder
(`state.currentRemainder`) is not part of the rebuilt list and is
dropped — see the counterexample. -/
theorem retile_preserves_item_sequence (s s' : ControllerState K)
    (h : retileStep s = some s') :
    flatSectionItems s'.sections ++ rowsItems s'.currentRowRemainder ++ s'.currentRemainder =
      flatSectionItems s.sections ++ rowsItems s.currentRowRemainder := by
  have horder := tile_order (flatSectionItems s.sections ++ rowsItems s.currentRowRemainder)
    s.options.rowAspectRatioThreshold s.currentRequestKey.truthy
  have hts2 : (tileStep s (flatSectionItems s.sections ++ rowsItems s.currentRowRemainder)
      false).2 = chunkRows (tile (flatSectionItems s.sections ++ rowsItems s.currentRowRemainder)
        s.options.rowAspectRatioThreshold s.currentRequestKey.truthy).1 := by
    simp [tileStep]
  have hts1rem : (tileStep s (flatSectionItems s.sections ++ rowsItems s.currentRowRemainder)
      false).1.currentRemainder =
      (tile (flatSectionItems s.sections ++ rowsItems s.currentRowRemainder)
        s.options.rowAspectRatioThreshold s.currentRequestKey.truthy).2 := by
    simp [tileStep]
  set T := tile (flatSectionItems s.sections ++ rowsItems s.currentRowRemainder)
    s.options.rowAspectRatioThreshold s.currentRequestKey.truthy with hT
  unfold retileStep at h
  by_cases hk : s.currentRequestKey.truthy = true
  · rw [if_pos hk] at h
    rw [hts2] at h
    cases hl : (chunkRows T.1).getLast? with
    | none =>
      rw [hl] at h
      exact absurd h (by simp)
    | some lastChunk =>
      rw [hl] at h
      simp only at h
      have hne : chunkRows T.1 ≠ [] := by
        intro hc
        rw [hc] at hl
        exact Option.noConfusion hl
      have hsplit : (chunkRows T.1).dropLast.flatten ++ lastChunk = T.1 := by
        have h1 : (chunkRows T.1).dropLast ++ [lastChunk] = chunkRows T.1 := by
          have h2 := List.dropLast_append_getLast hne
          rw [List.getLast?_eq_getLast _ hne] at hl
          rw [Option.some.inj hl] at h2
          exact h2
        calc (chunkRows T.1).dropLast.flatten ++ lastChunk
            = ((chunkRows T.1).dropLast ++ [lastChunk]).flatten := by
              rw [List.flatten_append]
              simp
          _ = (chunkRows T.1).flatten := by rw [h1]
          _ = T.1 := chunkRows_flatten T.1
      by_cases hlen : lastChunk.length ≠ NUM_ROWS_PER_SECTION
      · rw [if_pos hlen] at h
        rw [← Option.some.inj h, rebuildResult_items]
        simp only [apply_ite ControllerState.currentRowRemainder,
          apply_ite ControllerState.currentRemainder, getStep_fst_currentRowRemainder,
          getStep_fst_currentRemainder, ite_self]
        simp only [hts1rem]
        rw [← rowsItems_append, hsplit]
        exact horder
      · rw [if_neg hlen] at h
        rw [← Option.some.inj h, rebuildResult_items]
        simp only [hts1rem]
        rw [chunkRows_flatten]
        simpa [rowsItems] using horder
  · rw [if_neg hk] at h
    rw [hts2] at h
    rw [← Option.some.inj h, rebuildResult_items]
    simp only [hts1rem]
    rw [chunkRows_flatten]
    simpa [rowsItems] using horder

/-- Witness for C6 on the empty attached controller: the rebuild
succeeds and the item equation holds. -/
theorem retile_preserves_item_sequence_witness :
    ((retileStep baseState).map fun t =>
        flatSectionItems t.sections ++ rowsItems t.currentRowRemainder ++ t.currentRemainder) =
      some (flatSectionItems baseState.sections ++ rowsItems baseState.currentRowRemainder) := by
  cases hq : retileStep baseState with
  | none =>
    norm_num [retileStep, tileStep, tile, tileGo, chunkRows, rowsItems, flatSectionItems,
      resetForRebuild, appendSections, baseState, Key.truthy] at hq
    exact Option.noConfusion hq
  | some t =>
    simp only [Option.map_some']
    rw [retile_preserves_item_sequence baseState t hq]

/-- C6, divergence witness: before the rebuild the controller holds the
item `"c"` in its item remainder (`currentRemainder`); the rebuild
reconstructs only from the tiled sections and the row remainder
(`index.ts` lines 121-124) and then overwrites `currentRemainder`
(line 417), so its complete output — rebuilt sections' items, new row
remainder's items and new item remainder — is exactly `["b"]`, and the
held item `"c"` has been dropped, contradicting the claim's statement
that the rebuild reproduces the items held before it with none
dropped. -/
theorem retile_drops_item_remainder :
    ((retileStep dropExampleState).map fun t =>
        flatSectionItems t.sections ++ rowsItems t.currentRowRemainder ++ t.currentRemainder) =
      some [⟨"b", 6⟩] ∧
    dropExampleState.currentRemainder = [⟨"c", 2⟩] ∧
    (⟨"c", 2⟩ : ItemData) ∉ ([⟨"b", 6⟩] : List ItemData) := by
  refine ⟨?_, rfl, ?_⟩
  · norm_num [retileStep, tileStep, tile, tileGo, assignIds, appendSections, getStep,
      chunkRows, rowsItems, flatSectionItems, resetForRebuild, dropExampleState, baseState,
      Key.truthy, Key.isNull, NUM_ROWS_PER_SECTION]
  · norm_num

/-- An indexed section exists only at positions below the length. -/
theorem get?_some_lt {l : List CSection} {k : ℕ} {sec : CSection}
    (h : l.get? k = some sec) : k < l.length :=
  (List.get?_eq_some.1 h).1

/-- Updating a present position makes lookup return the new value. -/
theorem get?_set_self {l : List CSection} {i : ℕ} {sec : CSection} (a : CSection)
    (h : l.get? i = some sec) : (l.set i a).get? i = some a := by
  rw [List.get?_set_eq, h]
  rfl

/-- `showSection` changes neither the section count nor the window
bookkeeping. -/
theorem showSection_fields (s : ControllerState K) (i : ℕ) :
    (showSection s i).sections.length = s.sections.length ∧
    (showSection s i).activeSection = s.activeSection ∧
    (showSection s i).lastSection = s.lastSection ∧
    (showSection s i).currentRequestKey = s.currentRequestKey := by
  unfold showSection
  cases s.sections.get? i with
  | none => exact ⟨rfl, rfl, rfl, rfl⟩
  | some sec => by_cases h : sec.attached <;> simp [h]

/-- `hideSection` changes neither the section count nor the window
bookkeeping. -/
theorem hideSection_fields (s : ControllerState K) (i : ℕ) :
    (hideSection s i).sections.length = s.sections.length ∧
    (hideSection s i).activeSection = s.activeSection ∧
    (hideSection s i).lastSection = s.lastSection ∧
    (hideSection s i).currentRequestKey = s.currentRequestKey := by
  unfold hideSection
  cases s.sections.get? i with
  | none => exact ⟨rfl, rfl, rfl, rfl⟩
  | some sec => by_cases h : sec.attached <;> simp [h]

/-- On a well-formed state, showing a valid index inserts exactly that
index into the shown set (whether or not it was already attached). -/
theorem showSection_shown (s : ControllerState K) (i : ℕ) (hwf : WF s)
    (hi : i < s.sections.length) :
    (showSection s i).shownSections = insert i s.shownSections := by
  unfold showSection
  cases hg : s.sections.get? i with
  | none =>
    rw [List.get?_eq_get hi] at hg
    exact Option.noConfusion hg
  | some sec =>
    have hidx : sec.index = i := hwf.1 i sec hg
    by_cases h : sec.attached
    · have hmem : i ∈ s.shownSections := hwf.2.2 i sec hg h
      simp [h, (Finset.insert_eq_self).2 hmem]
    · simp [h, hidx]

/-- Showing a missing index is a no-op. -/
theorem showSection_out (s : ControllerState K) (i : ℕ)
    (hi : s.sections.length ≤ i) : showSection s i = s := by
  unfold showSection
  rw [List.get?_len_le hi]

/-- Well-formedness survives `showSection`. -/
theorem showSection_WF (s : ControllerState K) (i : ℕ) (hwf : WF s) :
    WF (showSection s i) := by
  unfold showSection
  cases hg : s.sections.get? i with
  | none => exact hwf
  | some sec =>
    by_cases h : sec.attached
    · simpa [h] using hwf
    · have hidx : sec.index = i := hwf.1 i sec hg
      simp only [h, Bool.false_eq_true, if_false, hidx]
      refine ⟨?_, ?_, ?_⟩
      · intro k sec' hk
        by_cases hki : k = i
        · subst hki
          rw [get?_set_self _ hg] at hk
          cases hk
          simpa using hidx
        · rw [List.get?_set_ne _ _ (fun he => hki he.symm)] at hk
          exact hwf.1 k sec' hk
      · intro j hj
        rcases Finset.mem_insert.1 hj with hj | hj
        · subst hj
          refine ⟨{ sec with attached := true }, ?_, rfl⟩
          simpa [hidx] using get?_set_self { sec with attached := true } hg
        · obtain ⟨sec'', hg'', ha''⟩ := hwf.2.1 j hj
          by_cases hji : j = i
          · subst hji
            refine ⟨{ sec with attached := true }, ?_, rfl⟩
            simpa [hidx] using get?_set_self { sec with attached := true } hg
          · exact ⟨sec'', by rw [List.get?_set_ne _ _ (fun he => hji he.symm)]; exact hg'', ha''⟩
      · intro k sec' hk ha
        by_cases hki : k = i
        · subst hki
          exact Finset.mem_insert_self k _
        · rw [List.get?_set_ne _ _ (fun he => hki he.symm)] at hk
          exact Finset.mem_insert_of_mem (hwf.2.2 k sec' hk ha)

/-- On a well-formed state, hiding an index removes exactly that index
from the shown set. -/
theorem hideSection_shown (s : ControllerState K) (i : ℕ) (hwf : WF s) :
    (hideSection s i).shownSections = s.shownSections.erase i := by
  unfold hideSection
  cases hg : s.sections.get? i with
  | none =>
    have hni : i ∉ s.shownSections := by
      intro hm
      obtain ⟨sec, hsec, _⟩ := hwf.2.1 i hm
      rw [hg] at hsec
      exact Option.noConfusion hsec
    simp [Finset.erase_eq_self.2 hni]
  | some sec =>
    have hidx : sec.index = i := hwf.1 i sec hg
    by_cases h : sec.attached
    · simp [h, hidx]
    · have hni : i ∉ s.shownSections := by
        intro hm
        obtain ⟨sec', hsec', ha'⟩ := hwf.2.1 i hm
        rw [hg] at hsec'
        cases hsec'
        exact h ha'
      simp [h, Finset.erase_eq_self.2 hni]

/-- Well-formedness survives `hideSection`. -/
theorem hideSection_WF (s : ControllerState K) (i : ℕ) (hwf : WF s) :
    WF (hideSection s i) := by
  unfold hideSection
  cases hg : s.sections.get? i with
  | none => exact hwf
  | some sec =>
    by_cases h : sec.attached
    · have hidx : sec.index = i := hwf.1 i sec hg
      simp only [h, if_true, hidx]
      refine ⟨?_, ?_, ?_⟩
      · intro k sec' hk
        by_cases hki : k = i
        · subst hki
          rw [get?_set_self _ hg] at hk
          cases hk
          simpa using hidx
        · rw [List.get?_set_ne _ _ (fun he => hki he.symm)] at hk
          exact hwf.1 k sec' hk
      · intro j hj
        have hji : j ≠ i := Finset.ne_of_mem_erase hj
        obtain ⟨sec'', hg'', ha''⟩ := hwf.2.1 j (Finset.mem_of_mem_erase hj)
        exact ⟨sec'', by rw [List.get?_set_ne _ _ (fun he => hji he.symm)]; exact hg'', ha''⟩
      · intro k sec' hk ha
        by_cases hki : k = i
        · subst hki
          rw [get?_set_self _ hg] at hk
          cases hk
          exact absurd ha (by simp)
        · rw [List.get?_set_ne _ _ (fun he => hki he.symm)] at hk
          exact Finset.mem_erase.2 ⟨hki, hwf.2.2 k sec' hk ha⟩
    · simpa [h] using hwf

/-- `getStep` keeps the active section. -/
@[simp] theorem getStep_fst_activeSection (s : ControllerState K) :
    (getStep s).1.activeSection = s.activeSection := by
  obtain ⟨b, hb⟩ := getStep_only_loading s; rw [hb]

/-- `getStep` keeps the last section. -/
@[simp] theorem getStep_fst_lastSection (s : ControllerState K) :
    (getStep s).1.lastSection = s.lastSection := by
  obtain ⟨b, hb⟩ := getStep_only_loading s; rw [hb]

/-- Well-formedness only depends on the section list and the shown
set. -/
theorem WF_of_eq (s t : ControllerState K) (hwf : WF s)
    (hsec : t.sections = s.sections) (hsh : t.shownSections = s.shownSections) : WF t := by
  unfold WF
  rw [hsec, hsh]
  exact hwf

/-- The hide fold of `clearOutsideSections`, characterized: it erases
exactly the listed indices lying outside `[a, b]`. -/
theorem clearFold_spec (a b : ℕ) :
    ∀ (l : List ℕ) (t : ControllerState K), WF t →
      t.activeSection = a → t.lastSection = b →
      WF (l.foldl (fun t i =>
        if i < t.activeSection ∨ t.lastSection < i then hideSection t i else t) t) ∧
      (l.foldl (fun t i =>
        if i < t.activeSection ∨ t.lastSection < i then hideSection t i else t) t).shownSections
        = t.shownSections \ (l.filter fun i => decide (i < a ∨ b < i)).toFinset ∧
      (l.foldl (fun t i =>
        if i < t.activeSection ∨ t.lastSection < i then hideSection t i else t) t).activeSection
        = a ∧
      (l.foldl (fun t i =>
        if i < t.activeSection ∨ t.lastSection < i then hideSection t i else t) t).lastSection
        = b ∧
      (l.foldl (fun t i =>
        if i < t.activeSection ∨ t.lastSection < i then hideSection t i else t) t).sections.length
        = t.sections.length ∧
      (l.foldl (fun t i =>
        if i < t.activeSection ∨ t.lastSection < i then hideSection t i else t)
          t).currentRequestKey = t.currentRequestKey := by
  intro l
  induction l with
  | nil =>
    intro t hwf ha hb
    simpa using ⟨hwf, ha, hb⟩
  | cons i rest ih =>
    intro t hwf ha hb
    rw [List.foldl_cons]
    by_cases hcond : i < a ∨ b < i
    · have hstep : (if i < t.activeSection ∨ t.lastSection < i then hideSection t i else t) =
          hideSection t i := by
        rw [ha, hb, if_pos hcond]
      rw [hstep]
      have hwf' := hideSection_WF t i hwf
      have hf := hideSection_fields t i
      have ih' := ih (hideSection t i) hwf' (hf.2.1.trans ha) (hf.2.2.1.trans hb)
      refine ⟨ih'.1, ?_, ih'.2.2.1, ih'.2.2.2.1, ih'.2.2.2.2.1.trans hf.1,
        ih'.2.2.2.2.2.trans hf.2.2.2⟩
      rw [ih'.2.1, hideSection_shown t i hwf]
      have hfc : (i :: rest).filter (fun i => decide (i < a ∨ b < i)) =
          i :: rest.filter (fun i => decide (i < a ∨ b < i)) := by
        simp [List.filter_cons, hcond]
      rw [hfc]
      ext x
      simp only [Finset.mem_sdiff, Finset.mem_erase, List.mem_toFinset, List.mem_cons]
      tauto
    · have hstep : (if i < t.activeSection ∨ t.lastSection < i then hideSection t i else t) =
          t := by
        rw [ha, hb, if_neg hcond]
      rw [hstep]
      have ih' := ih t hwf ha hb
      refine ⟨ih'.1, ?_, ih'.2.2.1, ih'.2.2.2.1, ih'.2.2.2.2.1, ih'.2.2.2.2.2⟩
      rw [ih'.2.1]
      congr 1
      rw [List.filter_cons]
      simp [hcond]

/-- `clearOutsideSections`, characterized: the shown set becomes its
restriction to `[activeSection, lastSection]`. -/
theorem clearOutsideSections_spec (s : ControllerState K) (hwf : WF s) :
    WF (clearOutsideSections s) ∧
    (clearOutsideSections s).shownSections =
      s.shownSections.filter (fun i => s.activeSection ≤ i ∧ i ≤ s.lastSection) ∧
    (clearOutsideSections s).activeSection = s.activeSection ∧
    (clearOutsideSections s).lastSection = s.lastSection ∧
    (clearOutsideSections s).sections.length = s.sections.length ∧
    (clearOutsideSections s).currentRequestKey = s.currentRequestKey := by
  have h := clearFold_spec s.activeSection s.lastSection (s.shownSections.sort (· ≤ ·)) s hwf
    rfl rfl
  unfold clearOutsideSections
  refine ⟨h.1, ?_, h.2.2.1, h.2.2.2.1, h.2.2.2.2.1, h.2.2.2.2.2⟩
  rw [h.2.1]
  ext x
  simp only [Finset.mem_sdiff, List.mem_toFinset, List.mem_filter, Finset.mem_sort,
    Finset.mem_filter, decide_eq_true_eq]
  constructor
  · rintro ⟨hx, hn⟩
    refine ⟨hx, ?_, ?_⟩ <;> by_contra hc <;> exact hn ⟨hx, by omega⟩
  · rintro ⟨hx, h1, h2⟩
    exact ⟨hx, fun hc => by omega⟩

/-- `requestMore` changes neither the shown set, the window
bookkeeping, nor the section list. -/
theorem requestMore_spec (s : ControllerState K) :
    (requestMore s).shownSections = s.shownSections ∧
    (requestMore s).activeSection = s.activeSection ∧
    (requestMore s).lastSection = s.lastSection ∧
    (requestMore s).sections = s.sections := by
  unfold requestMore
  split <;> simp

/-- `finalize`, characterized: the shown set becomes its restriction to
`[activeSection, lastSection]`, which is unchanged. -/
theorem finalizeStep_spec (s : ControllerState K) (hwf : WF s) :
    WF (finalizeStep s) ∧
    (finalizeStep s).shownSections =
      s.shownSections.filter (fun i => s.activeSection ≤ i ∧ i ≤ s.lastSection) ∧
    (finalizeStep s).activeSection = s.activeSection ∧
    (finalizeStep s).lastSection = s.lastSection := by
  have hc := clearOutsideSections_spec s hwf
  have hr := requestMore_spec (clearOutsideSections s)
  unfold finalizeStep
  refine ⟨WF_of_eq (clearOutsideSections s) _ hc.1 hr.2.2.2 hr.1, ?_, ?_, ?_⟩
  · rw [hr.1, hc.2.1]
  · rw [hr.2.1, hc.2.2.1]
  · rw [hr.2.2.1, hc.2.2.2.1]

/-- Inserting the left endpoint extends an interval union downward. -/
theorem union_Icc_insert_left (A : Finset ℕ) (j last : ℕ) (h : j ≤ last) :
    insert j A ∪ Finset.Icc (j + 1) last = A ∪ Finset.Icc j last := by
  ext x
  simp only [Finset.mem_insert, Finset.mem_union, Finset.mem_Icc]
  constructor
  · rintro ((rfl | hx) | ⟨h1, h2⟩)
    · exact Or.inr ⟨le_rfl, h⟩
    · exact Or.inl hx
    · exact Or.inr ⟨by omega, h2⟩
  · rintro (hx | ⟨h1, h2⟩)
    · exact Or.inl (Or.inr hx)
    · by_cases hxj : x = j
      · exact Or.inl (Or.inl hxj)
      · exact Or.inr ⟨by omega, h2⟩

/-- Inserting the right endpoint extends an interval union upward. -/
theorem union_Icc_insert_right (A : Finset ℕ) (act j : ℕ) (hj : 1 ≤ j)
    (h : act ≤ j - 1) :
    insert j A ∪ Finset.Icc act (j - 1) = A ∪ Finset.Icc act j := by
  ext x
  simp only [Finset.mem_insert, Finset.mem_union, Finset.mem_Icc]
  constructor
  · rintro ((rfl | hx) | ⟨h1, h2⟩)
    · exact Or.inr ⟨by omega, le_rfl⟩
    · exact Or.inl hx
    · exact Or.inr ⟨h1, by omega⟩
  · rintro (hx | ⟨h1, h2⟩)
    · exact Or.inl (Or.inr hx)
    · by_cases hxj : x = j
      · exact Or.inl (Or.inl hxj)
      · exact Or.inr ⟨h1, by omega⟩

/-- A singleton insertion as an interval union. -/
theorem insert_eq_union_Icc (A : Finset ℕ) (j : ℕ) :
    insert j (insert j A) = A ∪ Finset.Icc j j := by
  ext x
  simp only [Finset.mem_insert, Finset.mem_union, Finset.mem_Icc]
  constructor
  · rintro (rfl | rfl | hx)
    · exact Or.inr ⟨le_rfl, le_rfl⟩
    · exact Or.inr ⟨le_rfl, le_rfl⟩
    · exact Or.inl hx
  · rintro (hx | ⟨h1, h2⟩)
    · exact Or.inr (Or.inr hx)
    · exact Or.inl (by omega)

/-- A two-element upward insertion as an interval union. -/
theorem insert_succ_insert_eq_union_Icc (A : Finset ℕ) (j : ℕ) :
    insert (j + 1) (insert j A) = A ∪ Finset.Icc j (j + 1) := by
  ext x
  simp only [Finset.mem_insert, Finset.mem_union, Finset.mem_Icc]
  constructor
  · rintro (rfl | rfl | hx)
    · exact Or.inr ⟨by omega, le_rfl⟩
    · exact Or.inr ⟨le_rfl, by omega⟩
    · exact Or.inl hx
  · rintro (hx | ⟨h1, h2⟩)
    · exact Or.inr (Or.inr hx)
    · by_cases hxj : x = j
      · exact Or.inr (Or.inl hxj)
      · exact Or.inl (by omega)

/-- A two-element downward insertion as an interval union. -/
theorem insert_pred_insert_eq_union_Icc (A : Finset ℕ) (j : ℕ) (hj : 1 ≤ j) :
    insert (j - 1) (insert j A) = A ∪ Finset.Icc (j - 1) j := by
  ext x
  simp only [Finset.mem_insert, Finset.mem_union, Finset.mem_Icc]
  constructor
  · rintro (rfl | rfl | hx)
    · exact Or.inr ⟨le_rfl, by omega⟩
    · exact Or.inr ⟨by omega, le_rfl⟩
    · exact Or.inl hx
  · rintro (hx | ⟨h1, h2⟩)
    · exact Or.inr (Or.inr hx)
    · by_cases hxj : x = j
      · exact Or.inr (Or.inl hxj)
      · exact Or.inl (by omega)

/-- The forward show loop of the scroll-down sweep, characterized: on a
well-formed state it shows exactly the contiguous run from the start
index to the returned `lastSection`, which is a valid index at or after
the start. -/
theorem showFwd_spec :
    ∀ (fuel : ℕ) (s : ControllerState K) (j : ℕ) (bound : ℚ) (s2 : ControllerState K)
      (last : ℕ), WF s → j < s.sections.length →
      showFwd fuel s j bound = some (s2, last) →
      WF s2 ∧ s2.shownSections = s.shownSections ∪ Finset.Icc j last ∧ j ≤ last ∧
      last < s.sections.length ∧ s2.sections.length = s.sections.length ∧
      s2.activeSection = s.activeSection ∧ s2.lastSection = s.lastSection := by
  intro fuel
  induction fuel with
  | zero =>
    intro s j bound s2 last _ _ h
    simp [showFwd] at h
  | succ fuel ih =>
    intro s j bound s2 last hwf hj h
    rw [showFwd] at h
    cases hg : s.sections.get? j with
    | none =>
      rw [List.get?_eq_get hj] at hg
      exact Option.noConfusion hg
    | some sec =>
      rw [hg] at h
      simp only at h
      have hidx : sec.index = j := hwf.1 j sec hg
      rw [hidx] at h
      have hwf1 : WF (showSection s j) := showSection_WF s j hwf
      have hsh1 : (showSection s j).shownSections = insert j s.shownSections :=
        showSection_shown s j hwf hj
      have hflds1 := showSection_fields s j
      cases hg' : (showSection s j).sections.get? (j + 1) with
      | none =>
        rw [hg'] at h
        simp only [Nat.add_sub_cancel] at h
        cases h
        have hsh2 : (showSection (showSection s j) j).shownSections =
            insert j (showSection s j).shownSections :=
          showSection_shown (showSection s j) j hwf1 (by rw [hflds1.1]; exact hj)
        have hflds2 := showSection_fields (showSection s j) j
        refine ⟨showSection_WF (showSection s j) j hwf1, ?_, le_rfl, hj,
          hflds2.1.trans hflds1.1, hflds2.2.1.trans hflds1.2.1,
          hflds2.2.2.1.trans hflds1.2.2.1⟩
        rw [hsh2, hsh1, insert_eq_union_Icc]
      | some nxt =>
        rw [hg'] at h
        simp only at h
        have hj1 : j + 1 < s.sections.length := by
          have := get?_some_lt hg'
          rwa [hflds1.1] at this
        by_cases ht : nxt.top ≤ bound
        · rw [if_pos ht] at h
          have ihr := ih (showSection s j) (j + 1) bound s2 last hwf1
            (by rw [hflds1.1]; exact hj1) h
          refine ⟨ihr.1, ?_, by omega, ?_, ?_, ?_, ?_⟩
          · rw [ihr.2.1, hsh1, union_Icc_insert_left _ _ _ (by omega)]
          · have := ihr.2.2.2.1
            rwa [hflds1.1] at this
          · rw [ihr.2.2.2.2.1, hflds1.1]
          · rw [ihr.2.2.2.2.2.1, hflds1.2.1]
          · rw [ihr.2.2.2.2.2.2, hflds1.2.2.1]
        · rw [if_neg ht] at h
          cases h
          have hsh2 : (showSection (showSection s j) (j + 1)).shownSections =
              insert (j + 1) (showSection s j).shownSections :=
            showSection_shown (showSection s j) (j + 1) hwf1 (by rw [hflds1.1]; exact hj1)
          have hflds2 := showSection_fields (showSection s j) (j + 1)
          refine ⟨showSection_WF (showSection s j) (j + 1) hwf1, ?_, by omega, hj1,
            hflds2.1.trans hflds1.1, hflds2.2.1.trans hflds1.2.1,
            hflds2.2.2.1.trans hflds1.2.2.1⟩
          rw [hsh2, hsh1, insert_succ_insert_eq_union_Icc]

/-- The backward show loop of the scroll-up sweep, characterized: on a
well-formed state it shows exactly the contiguous run from the returned
`activeSection` up to the start index. -/
theorem showBwd_spec :
    ∀ (fuel : ℕ) (s : ControllerState K) (j : ℤ) (st : ℚ) (s2 : ControllerState K)
      (act : ℕ), WF s → 0 ≤ j → j.toNat < s.sections.length →
      showBwd fuel s j st = some (s2, act) →
      WF s2 ∧ s2.shownSections = s.shownSections ∪ Finset.Icc act j.toNat ∧
      act ≤ j.toNat ∧ s2.sections.length = s.sections.length ∧
      s2.activeSection = s.activeSection ∧ s2.lastSection = s.lastSection := by
  intro fuel
  induction fuel with
  | zero =>
    intro s j st s2 act _ _ _ h
    simp [showBwd] at h
  | succ fuel ih =>
    intro s j st s2 act hwf hj0 hjlen h
    rw [showBwd] at h
    have hzg : zsecGet s.sections j = s.sections.get? j.toNat := by
      unfold zsecGet
      rw [if_neg (not_lt.2 hj0)]
    cases hg : s.sections.get? j.toNat with
    | none =>
      rw [List.get?_eq_get hjlen] at hg
      exact Option.noConfusion hg
    | some sec =>
      rw [hzg, hg] at h
      simp only at h
      have hidx : sec.index = j.toNat := hwf.1 j.toNat sec hg
      rw [hidx] at h
      have hwf1 : WF (showSection s j.toNat) := showSection_WF s j.toNat hwf
      have hsh1 : (showSection s j.toNat).shownSections = insert j.toNat s.shownSections :=
        showSection_shown s j.toNat hwf hjlen
      have hflds1 := showSection_fields s j.toNat
      cases hg2 : zsecGet (showSection s j.toNat).sections ((j.toNat : ℤ) - 1) with
      | none =>
        rw [hg2] at h
        simp only at h
        have hz : j.toNat = 0 := by
          by_contra hz
          unfold zsecGet at hg2
          rw [if_neg (by omega)] at hg2
          have htn : ((j.toNat : ℤ) - 1).toNat = j.toNat - 1 := by omega
          rw [htn, List.get?_eq_get (by rw [hflds1.1]; omega)] at hg2
          exact Option.noConfusion hg2
        rw [hz] at h hsh1 hflds1 hwf1 hjlen ⊢
        have h01 : (((0 : ℕ) : ℤ) - 1 + 1).toNat = 0 := by norm_num
        rw [h01] at h
        cases h
        have hsh2 : (showSection (showSection s 0) 0).shownSections =
            insert 0 (showSection s 0).shownSections :=
          showSection_shown (showSection s 0) 0 hwf1
            (by rw [hflds1.1]; omega)
        have hflds2 := showSection_fields (showSection s 0) 0
        refine ⟨showSection_WF (showSection s 0) 0 hwf1, ?_, by omega,
          hflds2.1.trans hflds1.1, hflds2.2.1.trans hflds1.2.1,
          hflds2.2.2.1.trans hflds1.2.2.1⟩
        rw [hsh2, hsh1, insert_eq_union_Icc]
      | some prev =>
        rw [hg2] at h
        simp only at h
        have hz : 1 ≤ j.toNat := by
          by_contra hz
          unfold zsecGet at hg2
          rw [if_pos (by omega)] at hg2
          exact Option.noConfusion hg2
        have htn : ((j.toNat : ℤ) - 1).toNat = j.toNat - 1 := by omega
        by_cases ht : st ≤ prev.top + prev.height
        · rw [if_pos ht] at h
          have ihr := ih (showSection s j.toNat) ((j.toNat : ℤ) - 1) st s2 act hwf1
            (by omega) (by rw [htn, hflds1.1]; omega) h
          rw [htn] at ihr
          refine ⟨ihr.1, ?_, by omega, ?_, ?_, ?_⟩
          · rw [ihr.2.1, hsh1, union_Icc_insert_right _ _ _ hz (by omega)]
          · rw [ihr.2.2.2.1, hflds1.1]
          · rw [ihr.2.2.2.2.1, hflds1.2.1]
          · rw [ihr.2.2.2.2.2, hflds1.2.2.1]
        · rw [if_neg ht] at h
          rw [htn] at h
          cases h
          have hsh2 : (showSection (showSection s j.toNat) (j.toNat - 1)).shownSections =
              insert (j.toNat - 1) (showSection s j.toNat).shownSections :=
            showSection_shown (showSection s j.toNat) (j.toNat - 1) hwf1
              (by rw [hflds1.1]; omega)
          have hflds2 := showSection_fields (showSection s j.toNat) (j.toNat - 1)
          refine ⟨showSection_WF (showSection s j.toNat) (j.toNat - 1) hwf1, ?_, by omega,
            hflds2.1.trans hflds1.1, hflds2.2.1.trans hflds1.2.1,
            hflds2.2.2.1.trans hflds1.2.2.1⟩
          rw [hsh2, hsh1, insert_pred_insert_eq_union_Icc _ _ hz]

/-- The backward walk of the scroll-down sweep never moves forward. -/
theorem downWalk_le (secs : List CSection) (st : ℚ) : ∀ j, downWalk secs j st ≤ j := by
  intro j
  induction j with
  | zero =>
    unfold downWalk
    simp
  | succ n ih =>
    unfold downWalk
    split
    · omega
    · split
      · exact le_rfl
      · split
        · simpa using le_trans ih (by omega)
        · exact le_rfl

/-- Restricting a union with an interval to that interval gives the
interval. -/
theorem filter_union_Icc_self (A : Finset ℕ) (a b : ℕ) :
    (A ∪ Finset.Icc a b).filter (fun i => a ≤ i ∧ i ≤ b) = Finset.Icc a b := by
  ext x
  simp only [Finset.mem_filter, Finset.mem_union, Finset.mem_Icc]
  tauto

/-- Replacing the shown set with an equal set is the identity. -/
theorem withShown_eta (t : ControllerState K) (f : Finset ℕ)
    (hfeq : f = t.shownSections) :
    ({ t with shownSections := f } : ControllerState K) = t := by
  rw [hfeq]

/-- The scroll-down branch, characterized: if it completes, the shown
set is exactly the closed interval `[activeSection, lastSection]`. -/
theorem downBranch_spec (s : ControllerState K) (trigger : ℕ) (st : ℚ)
    (hwf : WF s) (htr : trigger < s.sections.length) :
    ∀ s', downBranch s trigger st = some s' →
      WF s' ∧ s'.shownSections = Finset.Icc s'.activeSection s'.lastSection := by
  intro s' h
  unfold downBranch at h
  simp only at h
  split at h
  · exact absurd h (by simp)
  next s2 lastIx hf =>
    cases h
    have hwf1 : WF { s with activeSection := downWalk s.sections trigger st - 1 } :=
      WF_of_eq s _ hwf rfl rfl
    have hactive_lt :
        downWalk s.sections trigger st - 1 <
          ({ s with activeSection := downWalk s.sections trigger st - 1 } :
            ControllerState K).sections.length := by
      have := downWalk_le s.sections st trigger
      simp only
      omega
    have hsf := showFwd_spec _ _ _ _ s2 lastIx hwf1 hactive_lt hf
    have hwf3 : WF ({ s2 with lastSection := lastIx } : ControllerState K) :=
      WF_of_eq s2 _ hsf.1 rfl rfl
    have hfin := finalizeStep_spec { s2 with lastSection := lastIx } hwf3
    refine ⟨hfin.1, ?_⟩
    rw [hfin.2.1, hfin.2.2.1, hfin.2.2.2]
    show (s2.shownSections.filter fun i => s2.activeSection ≤ i ∧ i ≤ lastIx) =
      Finset.Icc s2.activeSection lastIx
    rw [hsf.2.1, hsf.2.2.2.2.2.1]
    show ((s.shownSections ∪ _).filter fun i =>
      (downWalk s.sections trigger st - 1) ≤ i ∧ i ≤ lastIx) = _
    rw [filter_union_Icc_self]

/-- The scroll-up branch, characterized: if it completes, the shown set
is exactly the closed interval `[activeSection, lastSection]`. -/
theorem upBranch_spec (s : ControllerState K) (trigger : ℕ) (st : ℚ)
    (hwf : WF s) (htr : trigger < s.sections.length) :
    ∀ s', upBranch s trigger st = some s' →
      WF s' ∧ s'.shownSections = Finset.Icc s'.activeSection s'.lastSection := by
  intro s' h
  unfold upBranch at h
  simp only at h
  split at h
  · exact absurd h (by simp)
  next j0 hw =>
    split at h
    · exact absurd h (by simp)
    next s2 activeIx hb =>
      cases h
      have hwf1 : WF ({ s with
          lastSection := min (s.sections.length - 1) (j0 + 1) } : ControllerState K) :=
        WF_of_eq s _ hwf rfl rfl
      have hlen1 : ((min (s.sections.length - 1) (j0 + 1) : ℕ) : ℤ).toNat <
          ({ s with lastSection := min (s.sections.length - 1) (j0 + 1) } :
            ControllerState K).sections.length := by
        simp only [Int.toNat_natCast]
        omega
      have hsb := showBwd_spec _ _ _ _ s2 activeIx hwf1 (by positivity) hlen1 hb
      rw [Int.toNat_natCast] at hsb
      have hwf3 : WF ({ s2 with activeSection := activeIx } : ControllerState K) :=
        WF_of_eq s2 _ hsb.1 rfl rfl
      have hfin := finalizeStep_spec { s2 with activeSection := activeIx } hwf3
      refine ⟨hfin.1, ?_⟩
      rw [hfin.2.1, hfin.2.2.1, hfin.2.2.2]
      show (s2.shownSections.filter fun i => activeIx ≤ i ∧ i ≤ s2.lastSection) =
        Finset.Icc activeIx s2.lastSection
      rw [hsb.2.1, hsb.2.2.2.2.2]
      show ((s.shownSections ∪ _).filter fun i =>
        activeIx ≤ i ∧ i ≤ min (s.sections.length - 1) (j0 + 1)) = _
      rw [filter_union_Icc_self]

/-- The observer entry loop, characterized: either no entry triggered a
sweep and the state is unchanged, or a sweep ran and the shown set is
exactly `[activeSection, lastSection]`. -/
theorem entryLoop_spec (down : Bool) (st : ℚ) :
    ∀ (es : List Entry) (s : ControllerState K), WF s →
      ∀ s', entryLoop down st s es = some s' →
        (s' = s ∧ ∀ e ∈ es, e.intersecting = false ∧ e.index ∉ s.shownSections) ∨
        (WF s' ∧ s'.shownSections = Finset.Icc s'.activeSection s'.lastSection) := by
  intro es
  induction es with
  | nil =>
    intro s hwf s' h
    cases h
    left
    exact ⟨rfl, by simp⟩
  | cons e rest ih =>
    intro s hwf s' h
    rw [entryLoop] at h
    cases hg : s.sections.get? e.index with
    | none =>
      rw [hg] at h
      exact absurd h (by simp)
    | some sec =>
      rw [hg] at h
      simp only at h
      have hidx : sec.index = e.index := hwf.1 e.index sec hg
      have hlt := get?_some_lt hg
      rw [hidx] at h
      by_cases hint : e.intersecting
      · rw [if_pos hint] at h
        have hshown := showSection_shown s e.index hwf hlt
        have hs1 : ({ showSection s e.index with
            shownSections := insert e.index (showSection s e.index).shownSections } :
              ControllerState K) = showSection s e.index :=
          withShown_eta _ _ (by rw [hshown, Finset.insert_idem])
        rw [hs1] at h
        have hmem : e.index ∈ (showSection s e.index).shownSections := by
          rw [hshown]
          exact Finset.mem_insert_self e.index s.shownSections
        have hwfs : WF (showSection s e.index) := showSection_WF s e.index hwf
        have hltS : e.index < (showSection s e.index).sections.length := by
          rw [(showSection_fields s e.index).1]
          exact hlt
        cases hdown : down with
        | true =>
          rw [hdown] at h
          rw [if_pos ⟨rfl, hmem⟩] at h
          exact Or.inr (downBranch_spec _ e.index st hwfs hltS s' h)
        | false =>
          rw [hdown] at h
          rw [if_neg (fun hc => Bool.false_ne_true hc.1), if_pos ⟨rfl, hmem⟩] at h
          exact Or.inr (upBranch_spec _ e.index st hwfs hltS s' h)
      · rw [if_neg hint] at h
        by_cases hmem : e.index ∈ s.shownSections
        · cases hdown : down with
          | true =>
            rw [hdown] at h
            rw [if_pos ⟨rfl, hmem⟩] at h
            exact Or.inr (downBranch_spec s e.index st hwf hlt s' h)
          | false =>
            rw [hdown] at h
            rw [if_neg (fun hc => Bool.false_ne_true hc.1), if_pos ⟨rfl, hmem⟩] at h
            exact Or.inr (upBranch_spec s e.index st hwf hlt s' h)
        · rw [if_neg (fun hc => hmem hc.2), if_neg (fun hc => hmem hc.2)] at h
          rcases ih s hwf s' h with ⟨rfl, hall⟩ | hr
          · left
            refine ⟨rfl, ?_⟩
            intro e' he'
            rcases List.mem_cons.1 he' with rfl | he'
            · exact ⟨Bool.not_eq_true e'.intersecting ▸ (by simpa using hint), hmem⟩
            · exact hall e' he'
          · exact Or.inr hr

/-- C3: after any visibility/scroll batch that is processed to
completion on a well-formed state, the shown (mounted) section-index
set is exactly the single contiguous closed interval
`[activeSection, lastSection]` whenever any entry triggered the
directional sweep (in particular whenever any entry intersects the
viewport); a batch with no triggering entry changes neither the shown
set nor the window bounds. -/
theorem visibility_batch_contiguous (s : ControllerState K) (es : List Entry) (st : ℚ)
    (s' : ControllerState K) (hwf : WF s) (h : batchStep s es st = some s') :
    (s'.shownSections = Finset.Icc s'.activeSection s'.lastSection ∨
      (s'.shownSections = s.shownSections ∧ s'.activeSection = s.activeSection ∧
        s'.lastSection = s.lastSection)) ∧
    ((∃ e ∈ es, e.intersecting = true ∨ e.index ∈ s.shownSections) →
      s'.shownSections = Finset.Icc s'.activeSection s'.lastSection) := by
  unfold batchStep at h
  cases he : entryLoop (decide (s.lastScrollTop ≤ st)) st s es with
  | none =>
    rw [he] at h
    exact absurd h (by simp)
  | some s1 =>
    rw [he] at h
    cases h
    rcases entryLoop_spec _ st es s hwf s1 he with ⟨rfl, hall⟩ | ⟨_, hicc⟩
    · refine ⟨Or.inr ⟨rfl, rfl, rfl⟩, ?_⟩
      rintro ⟨e, hes, htrig | htrig⟩
      · exact absurd htrig (by simp [(hall e hes).1])
      · exact absurd htrig (hall e hes).2
    · exact ⟨Or.inl hicc, fun _ => hicc⟩

/-- The concrete witness state is well-formed. -/
theorem WF_visExampleState : WF visExampleState := by
  refine ⟨?_, ?_, ?_⟩
  · intro k sec hk
    cases k with
    | zero =>
      simp only [visExampleState, baseState, List.get?] at hk
      cases hk
      rfl
    | succ n =>
      simp [visExampleState, baseState, List.get?] at hk
  · intro i hi
    simp [visExampleState, baseState] at hi
  · intro k sec hk ha
    cases k with
    | zero =>
      simp only [visExampleState, baseState, List.get?] at hk
      cases hk
      exact absurd ha (by simp)
    | succ n =>
      simp [visExampleState, baseState, List.get?] at hk

/-- Witness for C3: a batch with one intersecting entry for section 0
on the concrete one-section state leaves the shown set equal to the
interval `[activeSection, lastSection]`. -/
theorem visibility_batch_contiguous_witness :
    ((batchStep visExampleState [⟨0, true⟩] 0).map fun t =>
      decide (t.shownSections = Finset.Icc t.activeSection t.lastSection)) = some true := by
  cases hq : batchStep visExampleState [⟨0, true⟩] 0 with
  | none =>
    have h00 : ((0 : ℚ) ≤ 0) := le_refl 0
    simp [batchStep, entryLoop, showSection, downBranch, downWalk, showFwd, finalizeStep,
      clearOutsideSections, requestMore, getStep, Key.truthy, Key.isNull, visExampleState,
      baseState, List.get?, h00] at hq
  | some t =>
    have hc := (visibility_batch_contiguous visExampleState [⟨0, true⟩] 0 t
      WF_visExampleState hq).2 ⟨⟨0, true⟩, by simp, Or.inl rfl⟩
    simp [hc]

end Flashlight
